import Mathlib

/-!
# Length-prefixed packet framing (`packets.go`)

A shallow embedding of the Go package `packets` and theorems about it.

Conventions of the embedding

* A Go `[]byte` is a `List UInt8`; `nil` and the empty slice are both `[]`
  (the package and its tests only ever compare slices with `bytes.Equal`).
  A real slice has `len ≤ maxInt`; theorems that depend on this carry it as a
  hypothesis on the slice concerned.
* `uint64` values are `Nat` reduced `% 2 ^ 64` where the Go operation can
  exceed the range; `int` is the 64-bit signed integer, modelled by `Int`
  together with `toInt` (the conversion `int(x)` of a `uint64`) and `wrapInt`
  (two's-complement wrap-around of a sum).
* A Go `error` is a value of the single type `Error`: the three constants of
  the package, `io.EOF`, and any other error value.
* A function that reports an error returns `Except Error`.  A panic is `none`
  for the codec, `Except.error` with the message for the constructor of the
  reader, and `ReadOutcome.panicked` for `PacketReader.Read`.
* `PacketReader.Read` contains an unbounded `for` loop; the embedding takes a
  fuel argument counting loop iterations and ends in `ReadOutcome.outOfFuel`
  when it runs out.
* `WritePacket` returns, next to its error, the arguments of the calls of
  `Write` it made, so that what reaches the sink can be stated for any sink.
* The background task of a `PacketStream` is run one loop iteration at a time;
  handing a packet over on the channel appends it to the sequence `ch` of
  packets handed over, and the lock is not modelled.
-/

namespace Packets

/-- Go `error` values that can flow through the package. -/
inductive Error where
  | ErrOverflow
  | ErrTooShort
  | ErrTooLong
  | EOF
  | other (code : Nat)
  deriving DecidableEq, Repr

/-- MaxPacketHeaderLength is the maximum supported packet header size. -/
def MaxPacketHeaderLength : Nat := 16

/-- Largest value of the 64-bit Go `int`, which bounds the length of every slice. -/
def maxInt : Nat := 2 ^ 63 - 1

/-- Conversion `int(x)` of a `uint64` value `x < 2 ^ 64` to the 64-bit signed `int`. -/
def toInt (x : Nat) : Int :=
  if x % 2 ^ 64 < 2 ^ 63 then ((x % 2 ^ 64 : Nat) : Int) else ((x % 2 ^ 64 : Nat) : Int) - 2 ^ 64

/-- Two's-complement wrap-around of a mathematical integer into the 64-bit `int`. -/
def wrapInt (z : Int) : Int :=
  (z + 2 ^ 63) % 2 ^ 64 - 2 ^ 63

/-- Loop of `binary.PutUvarint`: `for x >= 0x80 { buf[i] = byte(x) | 0x80; x >>= 7; i++ }`
followed by `buf[i] = byte(x); return i + 1`.  An index outside `buf` panics (`none`).
The result is the buffer after the writes and the number of bytes written. -/
def putUvarintLoop (buf : List UInt8) (x i : Nat) : Option (List UInt8 × Nat) :=
  if h : 0x80 ≤ x then
    if i < buf.length then
      putUvarintLoop (buf.set i (UInt8.ofNat ((x % 256) ||| 0x80))) (x >>> 7) (i + 1)
    else none
  else
    if i < buf.length then some (buf.set i (UInt8.ofNat (x % 256)), i + 1)
    else none
termination_by x
decreasing_by
  simp only [Nat.shiftRight_eq_div_pow]
  omega

/-- Go `binary.PutUvarint(buf, x)` for a `uint64` value `x`. -/
def PutUvarint (buf : List UInt8) (x : Nat) : Option (List UInt8 × Nat) :=
  putUvarintLoop buf x 0

/-- CreatePacket converts data to a packet: the header is written into a scratch
buffer of `MaxPacketHeaderLength` zero bytes and `temp[0:length]` is followed by
the data. -/
def CreatePacket (data : List UInt8) : Option (List UInt8) :=
  let temp := List.replicate MaxPacketHeaderLength (0 : UInt8)
  match PutUvarint temp (data.length % 2 ^ 64) with
  | none => none
  | some (temp, length) => some (temp.take length ++ data)

/-- Go `binary.MaxVarintLen64`, the maximum length of a varint-encoded 64-bit
integer. -/
def MaxVarintLen64 : Nat := 10

/-- Loop of `binary.Uvarint`, `for i, b := range buf`, over the bytes not yet
visited, `i` being the index of the first of them, `x` the value accumulated
so far and `s` the shift.  A byte at index `MaxVarintLen64` is an overflow, and
so is a last byte above 1 at index `MaxVarintLen64 - 1`.  The result is the
decoded value and the number of bytes read; `(0, 0)` means the buffer ended
inside the varint and `(0, -(i + 1))` means overflow. -/
def uvarintLoop : List UInt8 → Nat → Nat → Nat → Nat × Int
  | [], _, _, _ => (0, 0)
  | b :: bs, i, x, s =>
    if i = MaxVarintLen64 then (0, -((i : Int) + 1))
    else if b.toNat < 0x80 then
      if i = MaxVarintLen64 - 1 ∧ 1 < b.toNat then (0, -((i : Int) + 1))
      else (x ||| ((b.toNat <<< s) % 2 ^ 64), (i : Int) + 1)
    else uvarintLoop bs (i + 1) (x ||| (((b.toNat &&& 0x7f) <<< s) % 2 ^ 64)) (s + 7)

/-- Go `binary.Uvarint(buf)`. -/
def Uvarint (buf : List UInt8) : Nat × Int :=
  uvarintLoop buf 0 0 0

/-- SplitPacket splits packet data into the current packet and the remainder. -/
def SplitPacket (data : List UInt8) : Except Error (List UInt8 × List UInt8) :=
  match data with
  | [] => .error .ErrTooShort
  | b0 :: rest =>
    if b0 = 0 then .ok ([], rest)
    else
      let length := (Uvarint data).1
      let headerLength := (Uvarint data).2
      if headerLength = 0 then .error .ErrTooShort
      else if headerLength < 0 then .error .ErrOverflow
      else if toInt length ≤ 0 then .error .ErrOverflow
      else if wrapInt (toInt length + headerLength) ≤ 0 then .error .ErrOverflow
      else if wrapInt (toInt length + headerLength) > (data.length : Int) then .error .ErrTooShort
      else
        .ok ((data.take (wrapInt (headerLength + toInt length)).toNat).drop headerLength.toNat,
             data.drop (wrapInt (headerLength + toInt length)).toNat)

/-- Go `io.Reader`, as a state machine over the state `σ` of the underlying
source.  `Read st p` is one call `Read(p)`: it returns the count `n`, the
contents of `p` after the call, the error (`none` for `nil`) and the next
state.  The contract of `io.Reader` is `0 ≤ n ≤ len(p)`. -/
structure Reader (σ : Type) where
  Read : σ → List UInt8 → Nat × List UInt8 × Option Error × σ

/-- PacketReader reads packets from an io.Reader.  The field `r` is the state
of the underlying reader, `data` the accumulation buffer, `buffer` the scratch
buffer. -/
structure PacketReader (σ : Type) where
  r : σ
  data : List UInt8
  buffer : List UInt8
  maxPacketLength : Nat

/-- NewPacketReaderSize creates PacketReader with set buffer size; a panic is
`Except.error` with the panic message. -/
def NewPacketReaderSize {σ : Type} (r : σ) (size : Int) : Except String (PacketReader σ) :=
  if size ≤ 0 then .error "size must be greater than 0"
  else .ok { r := r, data := [], buffer := List.replicate size.toNat 0, maxPacketLength := 0 }

/-- NewPacketReader creates PacketReader with 1024 byte buffer. -/
def NewPacketReader {σ : Type} (r : σ) : Except String (PacketReader σ) :=
  NewPacketReaderSize r 1024

/-- SetMaxPacketLength sets the maximum packet length, zero is unlimited. -/
def PacketReader.SetMaxPacketLength {σ : Type} (r : PacketReader σ) (maxPacketLength : Nat) :
    PacketReader σ :=
  { r with maxPacketLength := maxPacketLength }

/-- How a call of `PacketReader.Read` can end in the embedding: it returns a
value and leaves the reader in a new state, or it panics, or the fuel runs out
before the loop returns. -/
inductive ReadOutcome (σ : Type) where
  | returned (res : Except Error (List UInt8)) (r : PacketReader σ)
  | panicked
  | outOfFuel

/-- Read reads from the PacketReader.  Each unit of fuel pays for one iteration
of the `for` loop.  The slice expression `r.buffer[0:n]` panics when the source
reports more bytes than the scratch buffer has. -/
def PacketReader.Read {σ : Type} (rd : Reader σ) : Nat → PacketReader σ → ReadOutcome σ
  | 0, _ => .outOfFuel
  | fuel + 1, r =>
    if 0 < r.maxPacketLength ∧ r.maxPacketLength < r.data.length % 2 ^ 64 then
      .returned (.error .ErrTooLong) r
    else
      match SplitPacket r.data with
      | .ok (data, next) => .returned (.ok data) { r with data := next }
      | .error err =>
        if err ≠ .ErrTooShort then .returned (.error err) r
        else
          match rd.Read r.r r.buffer with
          | (_, buffer, some err, st) => .returned (.error err) { r with r := st, buffer := buffer }
          | (n, buffer, none, st) =>
            if n ≤ r.buffer.length then
              PacketReader.Read rd fuel
                { r with r := st, buffer := buffer, data := r.data ++ buffer.take n }
            else .panicked

/-- Successive calls of `Read` on one reader, `k` of them, each with the given
fuel: the values returned, in order, and the reader after the last call;
`none` when one of the calls does not return. -/
def readCalls {σ : Type} (rd : Reader σ) (fuel : Nat) :
    Nat → PacketReader σ → Option (List (Except Error (List UInt8)) × PacketReader σ)
  | 0, r => some ([], r)
  | k + 1, r =>
    match PacketReader.Read rd fuel r with
    | .returned res r1 =>
      match readCalls rd fuel k r1 with
      | none => none
      | some (rs, r2) => some (res :: rs, r2)
    | _ => none

/-- An `io.Reader` that hands out a fixed list of chunks, one per call and with
a `nil` error, and reports `io.EOF` with zero bytes once they are used up.  The
state is the list of chunks still to be delivered; a chunk is copied to the
front of `p`. -/
def chunkReader : Reader (List (List UInt8)) where
  Read := fun st p =>
    match st with
    | [] => (0, p, some .EOF, [])
    | c :: cs => (c.length, c ++ p.drop c.length, none, cs)

/-- An `io.Reader` whose every call fails with the given error and no bytes. -/
def failingReader (e : Error) : Reader Unit where
  Read := fun _ p => (0, p, some e, ())

/-- An `io.Reader` that plays a fixed script, one entry per call: the bytes of
the entry are copied to the front of `p` and the call returns their number
together with the error of the entry (`none` for `nil`).  Once the script is
used up every call reports `io.EOF` with zero bytes. -/
def scriptReader : Reader (List (List UInt8 × Option Error)) where
  Read := fun st p =>
    match st with
    | [] => (0, p, some .EOF, [])
    | (c, e) :: rest => (c.length, c ++ p.drop c.length, e, rest)

/-- Go `io.Writer`, as a state machine over the state `σ` of the underlying
sink.  `Write st p` is one call `Write(p)`: it returns the count, the error
(`none` for `nil`) and the next state. -/
structure Writer (σ : Type) where
  Write : σ → List UInt8 → Nat × Option Error × σ

/-- What a call of `WritePacket` leaves behind: the error it returns, the
arguments of the calls of `Write` it made on the sink, in order, and the state
of the sink after them. -/
structure WriteResult (σ : Type) where
  err : Option Error
  writes : List (List UInt8)
  w : σ

/-- WritePacket writes data as a packet to an io.Writer.  The result is `none`
when `PutUvarint` panics. -/
def WritePacket {σ : Type} (wr : Writer σ) (w : σ) (data : List UInt8) :
    Option (WriteResult σ) :=
  let temp := List.replicate MaxPacketHeaderLength (0 : UInt8)
  match PutUvarint temp (data.length % 2 ^ 64) with
  | none => none
  | some (temp, length) =>
    match wr.Write w (temp.take length) with
    | (_, some err, w1) => some { err := some err, writes := [temp.take length], w := w1 }
    | (_, none, w1) =>
      match wr.Write w1 data with
      | (_, err, w2) => some { err := err, writes := [temp.take length, data], w := w2 }

/-- An `io.Writer` that keeps what it is given: the state is the bytes written
so far, and every write succeeds. -/
def bufferWriter : Writer (List UInt8) where
  Write := fun st p => (p.length, none, st ++ p)

/-- An `io.Writer` with room for `cap` bytes in all: a write that fits is
appended to the bytes written so far, a write that does not fit stores
nothing and fails with the error `e`. -/
def boundedWriter (cap : Nat) (e : Error) : Writer (List UInt8) where
  Write := fun st p =>
    if st.length + p.length ≤ cap then (p.length, none, st ++ p) else (0, some e, st)

/-- PacketStream streams packets from a reader or an error.  The field `ch` is
the sequence of packets handed over on the channel so far, `closes` the number
of times `close(stream.ch)` has been executed, `err` the terminal error, and
`exited` tells whether the background task `thread` has returned. -/
structure PacketStream (σ : Type) where
  r : PacketReader σ
  ch : List (List UInt8)
  closes : Nat
  err : Option Error
  exited : Bool

/-- NewPacketStreamSize creates a PacketStream with set buffer size; the
background task is started and has not run yet. -/
def NewPacketStreamSize {σ : Type} (r : σ) (size : Int) : Except String (PacketStream σ) :=
  match NewPacketReaderSize r size with
  | .error msg => .error msg
  | .ok pr => .ok { r := pr, ch := [], closes := 0, err := none, exited := false }

/-- NewPacketStream creates a PacketStream. -/
def NewPacketStream {σ : Type} (r : σ) : Except String (PacketStream σ) :=
  match NewPacketReader r with
  | .error msg => .error msg
  | .ok pr => .ok { r := pr, ch := [], closes := 0, err := none, exited := false }

/-- One iteration of the `for` loop of `thread`: a call of `Read` (with the
given fuel), then either the error is recorded, the channel closed and the task
returns, or the packet is handed over on the channel.  Once the task has
returned nothing runs any more and the stream stays as it is.  The result is
`none` when the call of `Read` does not return. -/
def PacketStream.threadStep {σ : Type} (rd : Reader σ) (fuel : Nat) (s : PacketStream σ) :
    Option (PacketStream σ) :=
  if s.exited then some s
  else
    match PacketReader.Read rd fuel s.r with
    | .returned (.error err) r1 =>
      some { s with r := r1, err := some err, closes := s.closes + 1, exited := true }
    | .returned (.ok data) r1 => some { s with r := r1, ch := s.ch ++ [data] }
    | _ => none

/-- The background task `thread`, run for `n` iterations of its loop. -/
def PacketStream.thread {σ : Type} (rd : Reader σ) (fuel : Nat) :
    Nat → PacketStream σ → Option (PacketStream σ)
  | 0, s => some s
  | n + 1, s =>
    match PacketStream.threadStep rd fuel s with
    | none => none
    | some s1 => PacketStream.thread rd fuel n s1

/-- What every state reached by the background task looks like: running with
no error and an open channel, or returned with an error and the channel closed
once. -/
def PacketStream.wellFormed {σ : Type} (s : PacketStream σ) : Prop :=
  (s.exited = false ∧ s.err = none ∧ s.closes = 0) ∨
  (s.exited = true ∧ (∃ e, s.err = some e) ∧ s.closes = 1)

/-- The number a sequence of header bytes stands for: the low seven bits of
each byte are a base-128 digit, least significant digit first. -/
def leValue : List UInt8 → Nat
  | [] => 0
  | b :: bs => b.toNat % 128 + 128 * leValue bs

/-- The unsigned little-endian base-128 encoding of `n` written from its
definition: seven value bits per byte, least significant group first, the
high bit set on every byte but the last. -/
def uvarintBytes (n : Nat) : List UInt8 :=
  if h : n < 128 then [UInt8.ofNat n]
  else UInt8.ofNat (n % 128 + 128) :: uvarintBytes (n / 128)
termination_by n
decreasing_by omega

end Packets

namespace Packets

/-! ## The header written by `PutUvarint` -/

set_option maxRecDepth 100000 in
theorem lor_continuation_small : ∀ y, y < 256 → y ||| 0x80 = y % 128 + 128 := by
  decide

theorem lor_continuation (x : Nat) : (x % 256) ||| 0x80 = x % 128 + 128 := by
  rw [lor_continuation_small (x % 256) (Nat.mod_lt _ (by norm_num))]
  omega

theorem set_at_length (pre suf : List UInt8) (a v : UInt8) :
    (pre ++ a :: suf).set pre.length v = pre ++ v :: suf := by
  induction pre with
  | nil => rfl
  | cons p ps ih => simp [ih]

theorem uvarintBytes_small (n : Nat) (h : n < 128) : uvarintBytes n = [UInt8.ofNat n] := by
  rw [uvarintBytes]; simp [h]

theorem uvarintBytes_large (n : Nat) (h : 128 ≤ n) :
    uvarintBytes n = UInt8.ofNat (n % 128 + 128) :: uvarintBytes (n / 128) := by
  rw [uvarintBytes]; simp [Nat.not_lt.mpr h]

theorem uvarintBytes_length_pos (n : Nat) : 1 ≤ (uvarintBytes n).length := by
  by_cases h : n < 128
  · simp [uvarintBytes_small n h]
  · simp [uvarintBytes_large n (Nat.not_lt.mp h)]

theorem uvarintBytes_length_le (k : Nat) : ∀ n, n < 2 ^ (7 * (k + 1)) →
    (uvarintBytes n).length ≤ k + 1 := by
  induction k with
  | zero =>
    intro n h
    have h1 : n < 128 := by simpa using h
    simp [uvarintBytes_small n h1]
  | succ k ih =>
    intro n h
    by_cases h1 : n < 128
    · simp [uvarintBytes_small n h1]
    · rw [uvarintBytes_large n (Nat.not_lt.mp h1)]
      have h2 : n / 128 < 2 ^ (7 * (k + 1)) := by
        have : 2 ^ (7 * (k + 1 + 1)) = 2 ^ (7 * (k + 1)) * 128 := by
          rw [show 7 * (k + 1 + 1) = 7 * (k + 1) + 7 by ring, pow_add]; norm_num
        rw [this] at h
        exact Nat.div_lt_of_lt_mul (by linarith)
      have := ih (n / 128) h2
      simp only [List.length_cons]
      omega

theorem uvarintBytes_length_le_ten (n : Nat) (h : n < 2 ^ 64) : (uvarintBytes n).length ≤ 10 := by
  have h1 : n < 2 ^ (7 * (9 + 1)) := lt_of_lt_of_le h (by norm_num)
  exact uvarintBytes_length_le 9 n h1

/-- The loop of `PutUvarint` started at index `|pre|` writes the base-128
encoding of `x` over the cells that follow, provided there are enough of them. -/
theorem putUvarintLoop_eq : ∀ (x : Nat) (pre suf : List UInt8),
    (uvarintBytes x).length ≤ suf.length →
    putUvarintLoop (pre ++ suf) x pre.length =
      some (pre ++ uvarintBytes x ++ suf.drop (uvarintBytes x).length,
            pre.length + (uvarintBytes x).length) := by
  intro x
  induction x using Nat.strong_induction_on with
  | _ x ih =>
    intro pre suf hlen
    cases suf with
    | nil =>
      have := uvarintBytes_length_pos x
      simp only [List.length_nil] at hlen; omega
    | cons a suf =>
      rw [putUvarintLoop]
      by_cases hx : 0x80 ≤ x
      · have hx' : 128 ≤ x := hx
        rw [dif_pos hx, if_pos (by simp), set_at_length, lor_continuation]
        rw [uvarintBytes_large x hx'] at hlen ⊢
        have hrec := ih (x >>> 7) (by simp only [Nat.shiftRight_eq_div_pow]; omega)
          (pre ++ [UInt8.ofNat (x % 128 + 128)]) suf
          (by simp only [Nat.shiftRight_eq_div_pow]; simpa using hlen)
        have e7 : x >>> 7 = x / 128 := by simp [Nat.shiftRight_eq_div_pow]
        rw [e7] at hrec
        simp only [List.append_assoc, List.singleton_append, List.length_append,
          List.length_singleton] at hrec
        rw [e7, hrec]
        simp only [List.append_assoc, List.cons_append, List.length_cons, List.drop_succ_cons]
        congr 2
        omega
      · have hx' : x < 128 := Nat.not_le.mp hx
        rw [dif_neg hx, if_pos (by simp), set_at_length, uvarintBytes_small x hx',
          Nat.mod_eq_of_lt (by omega : x < 256)]
        simp

theorem PutUvarint_eq (x : Nat) (hx : x < 2 ^ 64) :
    PutUvarint (List.replicate MaxPacketHeaderLength 0) x =
      some (uvarintBytes x ++
              (List.replicate MaxPacketHeaderLength (0 : UInt8)).drop (uvarintBytes x).length,
            (uvarintBytes x).length) := by
  have h10 := uvarintBytes_length_le_ten x hx
  have := putUvarintLoop_eq x [] (List.replicate MaxPacketHeaderLength 0)
    (by simp [MaxPacketHeaderLength]; omega)
  simpa [PutUvarint] using this

/-- What `CreatePacket` returns: it never panics, and the packet is the
base-128 encoding of the length followed by the data. -/
theorem CreatePacket_eq (data : List UInt8) :
    CreatePacket data = some (uvarintBytes (data.length % 2 ^ 64) ++ data) := by
  have hx : data.length % 2 ^ 64 < 2 ^ 64 := Nat.mod_lt _ (by norm_num)
  simp only [CreatePacket, PutUvarint_eq _ hx]
  simp

/-! ## Decoding a header with `Uvarint` -/

theorem toNat_ofNat_small (n : Nat) (h : n < 256) : (UInt8.ofNat n).toNat = n := by
  show n % 256 = n
  exact Nat.mod_eq_of_lt h

theorem lor_shifted (acc d p : Nat) (k : Nat) (hp : p = 2 ^ k) (hacc : acc < p) :
    acc ||| (d * p) = acc + d * p := by
  subst hp
  rw [Nat.or_comm, Nat.mul_comm d, ← Nat.mul_add_lt_is_or hacc d, Nat.add_comm]

/-- One step of the loop of `Uvarint` at an index below `MaxVarintLen64`. -/
theorem uvarintLoop_cons (b : UInt8) (bs : List UInt8) (i x s : Nat) (hi : i ≤ 9) :
    uvarintLoop (b :: bs) i x s =
      if b.toNat < 0x80 then
        if 9 < i ∨ (i = 9 ∧ 1 < b.toNat) then (0, -((i : Int) + 1))
        else (x ||| ((b.toNat <<< s) % 2 ^ 64), (i : Int) + 1)
      else uvarintLoop bs (i + 1) (x ||| (((b.toNat &&& 0x7f) <<< s) % 2 ^ 64)) (s + 7) := by
  have h10 : ¬ i = MaxVarintLen64 := by simp only [MaxVarintLen64]; omega
  have h9 : (i = MaxVarintLen64 - 1 ∧ 1 < b.toNat) ↔ (9 < i ∨ (i = 9 ∧ 1 < b.toNat)) := by
    simp only [MaxVarintLen64]
    constructor
    · rintro ⟨h1, h2⟩
      exact Or.inr ⟨by omega, h2⟩
    · rintro (h | ⟨h1, h2⟩)
      · omega
      · exact ⟨by omega, h2⟩
  rw [uvarintLoop, if_neg h10]
  by_cases hb : b.toNat < 0x80
  · rw [if_pos hb, if_pos hb]
    by_cases hc : i = MaxVarintLen64 - 1 ∧ 1 < b.toNat
    · rw [if_pos hc, if_pos (h9.mp hc)]
    · rw [if_neg hc, if_neg (fun h => hc (h9.mpr h))]
  · rw [if_neg hb, if_neg hb]

/-- At index `MaxVarintLen64` the loop of `Uvarint` reports overflow at once. -/
theorem uvarintLoop_at_max (b : UInt8) (bs : List UInt8) (x s : Nat) :
    uvarintLoop (b :: bs) 10 x s = (0, -11) := by
  rw [uvarintLoop, if_pos (by rfl)]
  norm_num

/-- Decoding the base-128 encoding of `v`, entered at byte index `i` with the
accumulator `acc` holding the `7 * i` low bits, gives `acc + v * 2 ^ (7 * i)` and
stops right after the encoding. -/
theorem uvarintLoop_uvarintBytes : ∀ (v : Nat) (i acc : Nat) (rest : List UInt8),
    i ≤ 9 → acc < 2 ^ (7 * i) → v * 2 ^ (7 * i) < 2 ^ 64 →
    uvarintLoop (uvarintBytes v ++ rest) i acc (7 * i) =
      (acc + v * 2 ^ (7 * i), (i : Int) + (uvarintBytes v).length) := by
  intro v
  induction v using Nat.strong_induction_on with
  | _ v ih =>
    intro i acc rest hi hacc hv
    have hpos : 0 < 2 ^ (7 * i) := pow_pos (by norm_num) _
    by_cases hsmall : v < 128
    · rw [uvarintBytes_small v hsmall]
      simp only [List.singleton_append, uvarintLoop_cons _ _ _ _ _ hi,
        toNat_ofNat_small v (by omega), List.length_singleton, Nat.shiftLeft_eq]
      rw [if_pos hsmall, Nat.mod_eq_of_lt hv, lor_shifted acc v _ (7 * i) rfl hacc]
      have hnot : ¬ (9 < i ∨ (i = 9 ∧ 1 < v)) := by
        rintro (h | ⟨h9, h1⟩)
        · omega
        · subst h9
          have : 2 * 2 ^ (7 * 9) ≤ v * 2 ^ (7 * 9) := Nat.mul_le_mul_right _ h1
          norm_num at this hv
          omega
      rw [if_neg hnot]
      simp
    · have hlarge : 128 ≤ v := Nat.not_lt.mp hsmall
      have hi8 : i ≤ 8 := by
        by_contra hcon
        have h9 : i = 9 := by omega
        subst h9
        have : 128 * 2 ^ (7 * 9) ≤ v * 2 ^ (7 * 9) := Nat.mul_le_mul_right _ hlarge
        norm_num at this hv
        omega
      have hpow : 2 ^ (7 * (i + 1)) = 128 * 2 ^ (7 * i) := by
        rw [show 7 * (i + 1) = 7 + 7 * i by ring, pow_add]; norm_num
      have hsplit : v % 128 * 2 ^ (7 * i) + v / 128 * (128 * 2 ^ (7 * i)) = v * 2 ^ (7 * i) := by
        have := Nat.div_add_mod v 128
        calc v % 128 * 2 ^ (7 * i) + v / 128 * (128 * 2 ^ (7 * i))
            = (128 * (v / 128) + v % 128) * 2 ^ (7 * i) := by ring
          _ = v * 2 ^ (7 * i) := by rw [this]
      have hlow : v % 128 * 2 ^ (7 * i) < 2 ^ 64 := by
        have : v % 128 * 2 ^ (7 * i) ≤ v * 2 ^ (7 * i) :=
          Nat.mul_le_mul_right _ (Nat.mod_le v 128)
        omega
      have hacc1 : acc + v % 128 * 2 ^ (7 * i) < 2 ^ (7 * (i + 1)) := by
        rw [hpow]
        have : v % 128 < 128 := Nat.mod_lt _ (by norm_num)
        nlinarith
      have hv1 : v / 128 * 2 ^ (7 * (i + 1)) < 2 ^ 64 := by
        rw [hpow]
        have : v / 128 * (128 * 2 ^ (7 * i)) ≤ v * 2 ^ (7 * i) := by omega
        omega
      rw [uvarintBytes_large v hlarge]
      have hbyte : (UInt8.ofNat (v % 128 + 128)).toNat = v % 128 + 128 :=
        toNat_ofNat_small _ (by omega)
      have hand : (v % 128 + 128) &&& 0x7f = v % 128 := by
        have := Nat.and_pow_two_sub_one_eq_mod (v % 128 + 128) 7
        norm_num at this
        rw [this]
      simp only [List.cons_append, uvarintLoop_cons _ _ _ _ _ hi, hbyte, hand, Nat.shiftLeft_eq,
        List.append_eq]
      rw [if_neg (by omega), Nat.mod_eq_of_lt hlow, lor_shifted acc (v % 128) _ (7 * i) rfl hacc]
      have hrec := ih (v / 128) (by omega) (i + 1) (acc + v % 128 * 2 ^ (7 * i)) rest
        (by omega) hacc1 hv1
      rw [show 7 * i + 7 = 7 * (i + 1) by ring, hrec, hpow, Nat.add_assoc, hsplit]
      simp only [List.length_cons]
      congr 1
      push_cast
      ring

theorem Uvarint_uvarintBytes (v : Nat) (hv : v < 2 ^ 64) (rest : List UInt8) :
    Uvarint (uvarintBytes v ++ rest) = (v, ((uvarintBytes v).length : Int)) := by
  have := uvarintLoop_uvarintBytes v 0 0 rest (by omega) (by norm_num) (by simpa using hv)
  simpa [Uvarint] using this

/-- While every byte has the continuation bit set the loop of `Uvarint` keeps
reading, and it reports `(0, 0)` when the buffer ends before index
`MaxVarintLen64` is reached. -/
theorem uvarintLoop_all_continuation : ∀ (l : List UInt8) (i x s : Nat),
    (∀ b ∈ l, 0x80 ≤ b.toNat) → i + l.length ≤ 10 → uvarintLoop l i x s = (0, 0) := by
  intro l
  induction l with
  | nil => intro i x s _ _; rfl
  | cons b bs ih =>
    intro i x s h hlen
    simp only [List.length_cons] at hlen
    have hb : ¬ b.toNat < 0x80 := Nat.not_lt.mpr (h b (List.mem_cons_self _ _))
    rw [uvarintLoop_cons _ _ _ _ _ (by omega), if_neg hb]
    exact ih _ _ _ (fun c hc => h c (List.mem_cons_of_mem _ hc)) (by omega)

/-- Every byte of a proper prefix of the encoding of `v` has the continuation bit. -/
theorem uvarintBytes_front_continuation : ∀ (v : Nat) (l t : List UInt8),
    uvarintBytes v = l ++ t → t ≠ [] → ∀ b ∈ l, 0x80 ≤ b.toNat := by
  intro v
  induction v using Nat.strong_induction_on with
  | _ v ih =>
    intro l t h ht b hb
    by_cases hsmall : v < 128
    · rw [uvarintBytes_small v hsmall] at h
      cases l with
      | nil => simp at hb
      | cons a l =>
        have hl := congrArg List.length h
        have : 0 < t.length := List.length_pos.mpr ht
        simp only [List.length_cons, List.length_append, List.length_singleton,
          List.length_nil] at hl
        omega
    · have hlarge : 128 ≤ v := Nat.not_lt.mp hsmall
      rw [uvarintBytes_large v hlarge] at h
      cases l with
      | nil => simp at hb
      | cons a l =>
        simp only [List.cons_append, List.cons.injEq] at h
        rcases List.mem_cons.mp hb with hba | hbl
        · rw [hba, ← h.1, toNat_ofNat_small _ (by omega)]
          omega
        · exact ih (v / 128) (by omega) l t h.2 ht b hbl

/-- The first byte of the encoding of a positive length is not zero. -/
theorem uvarintBytes_head_ne_zero (v : Nat) (hv : 0 < v) :
    ∃ b tl, uvarintBytes v = b :: tl ∧ b ≠ 0 := by
  by_cases hsmall : v < 128
  · refine ⟨UInt8.ofNat v, [], uvarintBytes_small v hsmall, ?_⟩
    intro h
    have := congrArg UInt8.toNat h
    rw [toNat_ofNat_small v (by omega)] at this
    simp at this
    omega
  · have hlarge : 128 ≤ v := Nat.not_lt.mp hsmall
    refine ⟨_, _, uvarintBytes_large v hlarge, ?_⟩
    intro h
    have := congrArg UInt8.toNat h
    rw [toNat_ofNat_small _ (by omega)] at this
    simp at this

/-! ## `SplitPacket` on a header followed by bytes -/

theorem toInt_small (n : Nat) (h : n < 2 ^ 63) : toInt n = (n : Int) := by
  have h1 : n % 2 ^ 64 = n := Nat.mod_eq_of_lt (by omega)
  simp only [toInt, h1, if_pos h]

theorem wrapInt_small (z : Int) (h0 : 0 ≤ z) (h1 : z < 2 ^ 63) : wrapInt z = z := by
  unfold wrapInt
  omega

/-- A header announcing `n > 0` bytes, followed by `rest`: the packet is the
first `n` bytes of `rest` when they are all there, and the data is too short
otherwise.  The frame (header and `n` bytes) has to fit the `int` range. -/
theorem SplitPacket_header (n : Nat) (rest : List UInt8) (hn : 0 < n)
    (hfit : (uvarintBytes n).length + n ≤ maxInt) :
    SplitPacket (uvarintBytes n ++ rest) =
      if n ≤ rest.length then .ok (rest.take n, rest.drop n) else .error .ErrTooShort := by
  have hmax : maxInt = 2 ^ 63 - 1 := rfl
  have hlpos := uvarintBytes_length_pos n
  have hU := Uvarint_uvarintBytes n (by omega) rest
  obtain ⟨b, tl, hb, hne⟩ := uvarintBytes_head_ne_zero n hn
  have hdata : (uvarintBytes n ++ rest).length = (uvarintBytes n).length + rest.length := by simp
  generalize hL : (uvarintBytes n).length = L at *
  have hti : toInt n = (n : Int) := toInt_small n (by omega)
  have hw1 : wrapInt ((n : Int) + (L : Int)) = (n : Int) + L :=
    wrapInt_small _ (by omega) (by omega)
  have hw2 : wrapInt ((L : Int) + (n : Int)) = (L : Int) + n :=
    wrapInt_small _ (by omega) (by omega)
  have hsplit : SplitPacket (uvarintBytes n ++ rest) =
      if ((n : Int) + (L : Int)) > ((uvarintBytes n ++ rest).length : Int) then .error .ErrTooShort
      else .ok (((uvarintBytes n ++ rest).take (L + n)).drop L,
                (uvarintBytes n ++ rest).drop (L + n)) := by
    have hU2 := hU
    rw [hb] at hU2 ⊢
    simp only [List.cons_append] at hU2 ⊢
    simp only [SplitPacket, if_neg hne, hU2, hti, hw1, hw2]
    rw [if_neg (by omega), if_neg (by omega), if_neg (by omega), if_neg (by omega)]
    have e1 : ((L : Int) + (n : Int)).toNat = L + n := by omega
    have e2 : (L : Int).toNat = L := by omega
    rw [e1, e2]
  rw [hsplit, hdata]
  by_cases hle : n ≤ rest.length
  · rw [if_neg (by omega), if_pos hle]
    have e3 : (uvarintBytes n ++ rest).take (L + n) = uvarintBytes n ++ rest.take n := by
      rw [← hL]; exact List.take_append _
    have e4 : (uvarintBytes n ++ rest).drop (L + n) = rest.drop n := by
      rw [← hL]; exact List.drop_append _
    rw [e3, e4, ← hL, List.drop_left]
  · rw [if_pos (by omega), if_neg hle]

/-- The packet built from any data, followed by any bytes, splits into the data
and those bytes, as long as the packet itself fits the `int` range. -/
theorem SplitPacket_frame_append (P rest : List UInt8)
    (hfit : (uvarintBytes (P.length % 2 ^ 64) ++ P).length ≤ maxInt) :
    SplitPacket (uvarintBytes (P.length % 2 ^ 64) ++ P ++ rest) = .ok (P, rest) := by
  have hmax : maxInt = 2 ^ 63 - 1 := rfl
  simp only [List.length_append] at hfit
  have hmod : P.length % 2 ^ 64 = P.length := Nat.mod_eq_of_lt (by omega)
  rw [hmod] at hfit ⊢
  cases P with
  | nil =>
    simp [uvarintBytes_small 0 (by norm_num), SplitPacket]
  | cons a P =>
    rw [List.append_assoc, SplitPacket_header _ _ (by simp) hfit, if_pos (by simp)]
    simp

theorem leValue_uvarintBytes (n : Nat) : leValue (uvarintBytes n) = n := by
  induction n using Nat.strong_induction_on with
  | _ n ih =>
    by_cases hsmall : n < 128
    · rw [uvarintBytes_small n hsmall]
      simp only [leValue, toNat_ofNat_small n (by omega)]
      omega
    · have hlarge : 128 ≤ n := Nat.not_lt.mp hsmall
      rw [uvarintBytes_large n hlarge]
      simp only [leValue, toNat_ofNat_small _ (by omega : n % 128 + 128 < 256),
        ih (n / 128) (by omega)]
      omega

/-- The encoding ends in a byte without the continuation bit, and every byte
before it has the bit. -/
theorem uvarintBytes_shape (n : Nat) :
    ∃ l b, uvarintBytes n = l ++ [b] ∧ b.toNat < 0x80 ∧ ∀ c ∈ l, 0x80 ≤ c.toNat := by
  induction n using Nat.strong_induction_on with
  | _ n ih =>
    by_cases hsmall : n < 128
    · refine ⟨[], UInt8.ofNat n, by simp [uvarintBytes_small n hsmall], ?_, by simp⟩
      rw [toNat_ofNat_small n (by omega)]
      exact hsmall
    · have hlarge : 128 ≤ n := Nat.not_lt.mp hsmall
      obtain ⟨l, b, hl, hb, hall⟩ := ih (n / 128) (by omega)
      refine ⟨UInt8.ofNat (n % 128 + 128) :: l, b, ?_, hb, ?_⟩
      · rw [uvarintBytes_large n hlarge, hl]
        rfl
      · intro c hc
        rcases List.mem_cons.mp hc with h | h
        · rw [h, toNat_ofNat_small _ (by omega)]
          omega
        · exact hall c h

/-! ## The codec: round trip, concatenation, partial input, wire format -/

/-- C1, round trip: for every byte sequence `P` (the empty one included) whose
packet fits a Go slice, `CreatePacket P` returns a packet `F` and
`SplitPacket F` succeeds with payload `P` and an empty remainder. -/
theorem SplitPacket_CreatePacket_roundtrip (P : List UInt8)
    (hfit : ∀ F, CreatePacket P = some F → F.length ≤ maxInt) :
    ∃ F, CreatePacket P = some F ∧ SplitPacket F = .ok (P, []) := by
  refine ⟨_, CreatePacket_eq P, ?_⟩
  have := SplitPacket_frame_append P [] (hfit _ (CreatePacket_eq P))
  simpa using this

theorem SplitPacket_CreatePacket_roundtrip_witness :
    ∃ F, CreatePacket [1, 2, 3, 4] = some F ∧ SplitPacket F = .ok ([1, 2, 3, 4], []) :=
  SplitPacket_CreatePacket_roundtrip [1, 2, 3, 4] (by
    intro F hF
    rw [CreatePacket_eq] at hF
    cases hF
    simp [uvarintBytes_small, maxInt])

/-- C2, concatenation: for all `P1`, `P2` whose packets, laid end to end, fit a
Go slice, `SplitPacket (CreatePacket P1 ++ CreatePacket P2)` succeeds with
payload `P1` and remainder exactly `CreatePacket P2`, and `SplitPacket` on that
remainder succeeds with payload `P2` and an empty remainder. -/
theorem SplitPacket_concatenation (P1 P2 : List UInt8)
    (hfit : ∀ F1 F2, CreatePacket P1 = some F1 → CreatePacket P2 = some F2 →
      (F1 ++ F2).length ≤ maxInt) :
    ∃ F1 F2, CreatePacket P1 = some F1 ∧ CreatePacket P2 = some F2 ∧
      SplitPacket (F1 ++ F2) = .ok (P1, F2) ∧ SplitPacket F2 = .ok (P2, []) := by
  have h := hfit _ _ (CreatePacket_eq P1) (CreatePacket_eq P2)
  rw [List.length_append] at h
  refine ⟨_, _, CreatePacket_eq P1, CreatePacket_eq P2, ?_, ?_⟩
  · exact SplitPacket_frame_append P1 _ (by omega)
  · have := SplitPacket_frame_append P2 [] (by omega)
    simpa using this

theorem SplitPacket_concatenation_witness :
    ∃ F1 F2, CreatePacket [5] = some F1 ∧ CreatePacket [6, 7] = some F2 ∧
      SplitPacket (F1 ++ F2) = .ok ([5], F2) ∧ SplitPacket F2 = .ok ([6, 7], []) :=
  SplitPacket_concatenation [5] [6, 7] (by
    intro F1 F2 h1 h2
    rw [CreatePacket_eq] at h1 h2
    cases h1
    cases h2
    simp [uvarintBytes_small, maxInt])

/-- A buffer of at most `MaxVarintLen64` bytes in which every byte has the
continuation bit holds no complete header yet. -/
theorem SplitPacket_all_continuation (l : List UInt8) (h : ∀ b ∈ l, 0x80 ≤ b.toNat)
    (hlen : l.length ≤ 10) : SplitPacket l = .error .ErrTooShort := by
  cases l with
  | nil => rfl
  | cons b bs =>
    have hb : b ≠ 0 := by
      intro h0
      have := h b (List.mem_cons_self _ _)
      rw [h0] at this
      simp at this
    have hU : Uvarint (b :: bs) = (0, 0) :=
      uvarintLoop_all_continuation _ 0 0 0 h (by omega)
    simp [SplitPacket, hb, hU]

/-- A buffer that stops short of the end of a packet holds no complete packet. -/
theorem SplitPacket_truncated (P F' : List UInt8)
    (hfit : (uvarintBytes (P.length % 2 ^ 64) ++ P).length ≤ maxInt)
    (hpre : F' <+: uvarintBytes (P.length % 2 ^ 64) ++ P)
    (hlt : F'.length < (uvarintBytes (P.length % 2 ^ 64) ++ P).length) :
    SplitPacket F' = .error .ErrTooShort := by
  have hmax : maxInt = 2 ^ 63 - 1 := rfl
  simp only [List.length_append] at hfit hlt
  have hmod : P.length % 2 ^ 64 = P.length := Nat.mod_eq_of_lt (by omega)
  rw [hmod] at hfit hlt hpre
  obtain ⟨t, ht⟩ := hpre
  have htlen : 0 < t.length := by
    have := congrArg List.length ht
    simp only [List.length_append] at this
    omega
  have full : ∀ c, P = c ++ t → SplitPacket (uvarintBytes P.length ++ c) = .error .ErrTooShort := by
    intro c hc
    have hPlen : P.length = c.length + t.length := by rw [hc]; simp
    rw [SplitPacket_header P.length c (by omega) hfit, if_neg (by omega)]
  rcases List.append_eq_append_iff.mp ht with ⟨a, ha, hta⟩ | ⟨c, hc, hPc⟩
  · by_cases hnil : a = []
    · subst hnil
      simp only [List.append_nil] at ha
      simp only [List.nil_append] at hta
      have := full [] (by simp [hta])
      simpa [ha] using this
    · refine SplitPacket_all_continuation F'
        (uvarintBytes_front_continuation P.length F' a ha hnil) ?_
      have h10 := uvarintBytes_length_le_ten P.length (by omega)
      have hl := congrArg List.length ha
      simp only [List.length_append] at hl
      omega
  · rw [hc]
    exact full c hPc

/-- C3, partial input is never reported as malformed: for every byte sequence
`P` whose packet `F` fits a Go slice and every strict prefix `F'` of `F` (the
empty prefix included), `SplitPacket F'` returns `ErrTooShort`, so neither
`ErrOverflow` nor a success. -/
theorem SplitPacket_truncated_packet (P F F' : List UInt8) (hF : CreatePacket P = some F)
    (hfit : F.length ≤ maxInt) (hpre : F' <+: F) (hlt : F'.length < F.length) :
    SplitPacket F' = .error .ErrTooShort := by
  rw [CreatePacket_eq] at hF
  cases hF
  exact SplitPacket_truncated P F' hfit hpre hlt

theorem SplitPacket_truncated_packet_witness :
    SplitPacket ([3, 7] : List UInt8) = .error .ErrTooShort :=
  SplitPacket_truncated_packet [7, 8, 9] [3, 7, 8, 9] [3, 7]
    (by rw [CreatePacket_eq]; simp [uvarintBytes_small])
    (by simp [maxInt]) ⟨[8, 9], rfl⟩ (by simp)

/-- C5, wire format: for every byte sequence `P` (a Go slice, so of length at
most `maxInt`), `CreatePacket P` does not panic and returns `h ++ P` where `h`
is the unsigned little-endian base-128 encoding of `len(P)`: `h` equals
`uvarintBytes P.length`, its base-128 digits (least significant first) give
back `P.length`, every byte but the last has the high bit set and the last has
it clear, and `h` has between 1 and 10 bytes, within the
`MaxPacketHeaderLength = 16` bytes of the scratch buffer.  Also `[1,2,3,4]`
encodes to `[4,1,2,3,4]`, and every 258-byte payload gets header `[130, 2]`. -/
theorem CreatePacket_wire_format (P : List UInt8) (hP : P.length ≤ maxInt) :
    (∃ h, CreatePacket P = some (h ++ P) ∧ h = uvarintBytes P.length ∧
      leValue h = P.length ∧
      (∃ l b, h = l ++ [b] ∧ b.toNat < 0x80 ∧ ∀ c ∈ l, 0x80 ≤ c.toNat) ∧
      1 ≤ h.length ∧ h.length ≤ 10 ∧ h.length ≤ MaxPacketHeaderLength) ∧
    CreatePacket [1, 2, 3, 4] = some [4, 1, 2, 3, 4] ∧
    (∀ Q : List UInt8, Q.length = 258 → CreatePacket Q = some ([130, 2] ++ Q)) := by
  have hmax : maxInt = 2 ^ 63 - 1 := rfl
  have hmod : P.length % 2 ^ 64 = P.length := Nat.mod_eq_of_lt (by omega)
  have h10 := uvarintBytes_length_le_ten P.length (by omega)
  refine ⟨⟨uvarintBytes P.length, ?_, rfl, leValue_uvarintBytes _, uvarintBytes_shape _,
    uvarintBytes_length_pos _, h10, ?_⟩, ?_, ?_⟩
  · rw [CreatePacket_eq, hmod]
  · simp only [MaxPacketHeaderLength]; omega
  · rw [CreatePacket_eq]
    simp [uvarintBytes_small]
  · intro Q hQ
    rw [CreatePacket_eq, hQ]
    have e : uvarintBytes (258 % 2 ^ 64) = [130, 2] := by
      rw [show (258 % 2 ^ 64 : Nat) = 258 by norm_num, uvarintBytes_large 258 (by norm_num),
        uvarintBytes_small (258 / 128) (by norm_num)]
      rfl
    rw [e]

theorem CreatePacket_wire_format_witness :
    CreatePacket ([9, 8, 7] : List UInt8) = some ([3] ++ [9, 8, 7]) ∧
    CreatePacket (List.replicate 258 (48 : UInt8)) =
      some ([130, 2] ++ List.replicate 258 (48 : UInt8)) := by
  have h := CreatePacket_wire_format [9, 8, 7] (by simp [maxInt])
  obtain ⟨⟨hd, h1, h2, -⟩, -, h258⟩ := h
  refine ⟨?_, h258 _ (List.length_replicate _ _)⟩
  rw [h1, h2]
  simp [uvarintBytes_small]

/-- C6, zero-length fast path: `CreatePacket` of the empty payload is exactly
the single byte `0x00`, and for every byte sequence `b`, `SplitPacket (0x00 :: b)`
succeeds with an empty payload and remainder exactly `b`. -/
theorem zero_length_fast_path :
    CreatePacket [] = some [0x00] ∧
    ∀ b : List UInt8, SplitPacket (0x00 :: b) = .ok ([], b) := by
  constructor
  · rw [CreatePacket_eq]
    simp [uvarintBytes_small]
  · intro b
    simp [SplitPacket]

/-! ## The buffered reader on a chunked source -/

theorem guard_off (M : Nat) (d : List UInt8) (total : Nat) (hM : M = 0 ∨ total ≤ M)
    (hd : d.length ≤ total) : ¬ (0 < M ∧ M < d.length % 2 ^ 64) := by
  have := Nat.mod_le d.length (2 ^ 64)
  omega

/-- One loop iteration of `Read` when the length guard does not fire. -/
theorem Read_succ_guard_off {σ : Type} (rd : Reader σ) (fuel : Nat) (r : PacketReader σ)
    (hg : ¬ (0 < r.maxPacketLength ∧ r.maxPacketLength < r.data.length % 2 ^ 64)) :
    PacketReader.Read rd (fuel + 1) r =
      match SplitPacket r.data with
      | .ok (data, next) => .returned (.ok data) { r with data := next }
      | .error err =>
        if err ≠ .ErrTooShort then .returned (.error err) r
        else
          match rd.Read r.r r.buffer with
          | (_, buffer, some err, st) => .returned (.error err) { r with r := st, buffer := buffer }
          | (n, buffer, none, st) =>
            if n ≤ r.buffer.length then
              PacketReader.Read rd fuel
                { r with r := st, buffer := buffer, data := r.data ++ buffer.take n }
            else .panicked := by
  rw [PacketReader.Read, if_neg hg]

/-- One call of `Read` with a reader whose accumulation buffer and pending
chunks together start with the packet of `P`, the maximum packet length being
zero or at least the number of bytes of the whole stream: the call returns `P`,
and what is left (buffer, then pending chunks) is the rest of the stream. -/
theorem Read_next_packet (P rest : List UInt8) (M : Nat)
    (hfit : (uvarintBytes (P.length % 2 ^ 64) ++ P).length ≤ maxInt)
    (hM : M = 0 ∨ (uvarintBytes (P.length % 2 ^ 64) ++ P ++ rest).length ≤ M) :
    ∀ (chunks : List (List UInt8)) (d buf : List UInt8) (fuel : Nat),
      d ++ chunks.flatten = uvarintBytes (P.length % 2 ^ 64) ++ P ++ rest →
      (∀ c ∈ chunks, c.length ≤ buf.length) →
      chunks.length < fuel →
      ∃ chunks1 d1 buf1,
        PacketReader.Read chunkReader fuel
            { r := chunks, data := d, buffer := buf, maxPacketLength := M } =
          .returned (.ok P) { r := chunks1, data := d1, buffer := buf1, maxPacketLength := M } ∧
        d1 ++ chunks1.flatten = rest ∧ chunks1.length ≤ chunks.length ∧
        buf1.length = buf.length ∧ ∀ c ∈ chunks1, c ∈ chunks := by
  intro chunks
  induction chunks with
  | nil =>
    intro d buf fuel hstream _ hfuel
    obtain ⟨fuel, rfl⟩ : ∃ f, fuel = f + 1 := ⟨fuel - 1, by omega⟩
    have hg := guard_off M d _ hM (by rw [← hstream]; simp)
    simp only [List.flatten_nil, List.append_nil] at hstream
    have hsp : SplitPacket d = .ok (P, rest) := by
      rw [hstream]; exact SplitPacket_frame_append P rest hfit
    exact ⟨[], rest, buf, by rw [Read_succ_guard_off _ _ _ hg]; simp [hsp], by simp, le_refl _, rfl,
      fun _ h => h⟩
  | cons c cs ih =>
    intro d buf fuel hstream hsz hfuel
    obtain ⟨fuel, rfl⟩ : ∃ f, fuel = f + 1 := ⟨fuel - 1, by omega⟩
    have hg := guard_off M d _ hM (by rw [← hstream]; simp)
    rcases List.append_eq_append_iff.mp hstream with ⟨a, ha, hja⟩ | ⟨e, he, hrest⟩
    · by_cases hnil : a = []
      · subst hnil
        simp only [List.append_nil] at ha
        simp only [List.nil_append] at hja
        have hsp : SplitPacket d = .ok (P, []) := by
          rw [← ha]
          have := SplitPacket_frame_append P [] hfit
          rwa [List.append_nil] at this
        exact ⟨c :: cs, [], buf, by rw [Read_succ_guard_off _ _ _ hg]; simp [hsp], by simpa using hja,
          le_refl _, rfl, fun _ h => h⟩
      · have hshort : SplitPacket d = .error .ErrTooShort := by
          refine SplitPacket_truncated P d hfit ⟨a, ha.symm⟩ ?_
          have hl := congrArg List.length ha
          have : 0 < a.length := List.length_pos.mpr hnil
          simp only [List.length_append] at hl ⊢
          omega
        have hstream1 : (d ++ c) ++ cs.flatten = uvarintBytes (P.length % 2 ^ 64) ++ P ++ rest := by
          rw [← hstream]
          simp
        have hc : c.length ≤ buf.length := hsz c (List.mem_cons_self _ _)
        have hbuf : (c ++ buf.drop c.length).length = buf.length := by
          simp only [List.length_append, List.length_drop]; omega
        obtain ⟨chunks1, d1, buf1, hread, hleft, hlen, hbuf1, hmem⟩ :=
          ih (d ++ c) (c ++ buf.drop c.length) fuel hstream1
            (fun c1 h1 => by rw [hbuf]; exact hsz c1 (List.mem_cons_of_mem _ h1))
            (by simpa using hfuel)
        refine ⟨chunks1, d1, buf1, ?_, hleft, by simp only [List.length_cons]; omega,
          by rw [hbuf1, hbuf], fun c1 h1 => List.mem_cons_of_mem _ (hmem c1 h1)⟩
        rw [← hread]
        rw [Read_succ_guard_off _ _ _ hg]
        simp [hshort, chunkReader, hc]
    · have hsp : SplitPacket d = .ok (P, e) := by
        rw [he]; exact SplitPacket_frame_append P e hfit
      exact ⟨c :: cs, e, buf, by rw [Read_succ_guard_off _ _ _ hg]; simp [hsp], hrest.symm, le_refl _, rfl,
        fun _ h => h⟩

/-- One call of `Read` with an unlimited reader whose accumulation buffer is
empty and whose pending chunks are all empty: the call returns `io.EOF`. -/
theorem Read_end_of_input :
    ∀ (chunks : List (List UInt8)) (buf : List UInt8) (fuel : Nat),
      chunks.flatten = [] → chunks.length < fuel →
      ∃ r1, PacketReader.Read chunkReader fuel
          { r := chunks, data := [], buffer := buf, maxPacketLength := 0 } =
        .returned (.error .EOF) r1 := by
  intro chunks
  induction chunks with
  | nil =>
    intro buf fuel _ hfuel
    obtain ⟨fuel, rfl⟩ : ∃ f, fuel = f + 1 := ⟨fuel - 1, by omega⟩
    exact ⟨{ r := [], data := [], buffer := buf, maxPacketLength := 0 },
      by simp [PacketReader.Read, SplitPacket, chunkReader]⟩
  | cons c cs ih =>
    intro buf fuel hjoin hfuel
    obtain ⟨fuel, rfl⟩ : ∃ f, fuel = f + 1 := ⟨fuel - 1, by omega⟩
    simp only [List.flatten_cons, List.append_eq_nil] at hjoin
    obtain ⟨hc, hcs⟩ := hjoin
    subst hc
    obtain ⟨r1, hr1⟩ := ih ([] ++ buf.drop 0) fuel hcs (by simpa using hfuel)
    refine ⟨r1, ?_⟩
    rw [← hr1]
    simp [PacketReader.Read, SplitPacket, chunkReader]

/-- Successive calls of `Read` on a stream of packets cut into chunks: the
payloads come back in order, followed by `io.EOF`. -/
theorem readCalls_stream : ∀ (Ps : List (List UInt8)) (chunks : List (List UInt8))
    (d buf : List UInt8) (fuel : Nat),
    d ++ chunks.flatten = (Ps.map fun P => uvarintBytes (P.length % 2 ^ 64) ++ P).flatten →
    (∀ P ∈ Ps, (uvarintBytes (P.length % 2 ^ 64) ++ P).length ≤ maxInt) →
    (∀ c ∈ chunks, c.length ≤ buf.length) →
    chunks.length < fuel →
    ∃ r1, readCalls chunkReader fuel (Ps.length + 1)
        { r := chunks, data := d, buffer := buf, maxPacketLength := 0 } =
      some (Ps.map .ok ++ [.error .EOF], r1) := by
  intro Ps
  induction Ps with
  | nil =>
    intro chunks d buf fuel hstream _ _ hfuel
    simp only [List.map_nil, List.flatten_nil, List.append_eq_nil] at hstream
    obtain ⟨hd, hj⟩ := hstream
    subst hd
    obtain ⟨r1, hr1⟩ := Read_end_of_input chunks buf fuel hj hfuel
    exact ⟨r1, by simp [readCalls, hr1]⟩
  | cons P Ps ih =>
    intro chunks d buf fuel hstream hfit hsz hfuel
    simp only [List.map_cons, List.flatten_cons] at hstream
    obtain ⟨chunks1, d1, buf1, hread, hleft, hlen, hbuf1, hmem⟩ :=
      Read_next_packet P _ 0 (hfit P (List.mem_cons_self _ _)) (Or.inl rfl) chunks d buf fuel
        hstream hsz hfuel
    obtain ⟨r1, hr1⟩ := ih chunks1 d1 buf1 fuel hleft
      (fun Q hQ => hfit Q (List.mem_cons_of_mem _ hQ))
      (fun c hc => by rw [hbuf1]; exact hsz c (hmem c hc)) (by omega)
    refine ⟨r1, ?_⟩
    rw [List.length_cons, readCalls, hread]
    simp only [hr1, List.map_cons, List.cons_append]

theorem packets_of_forall₂ : ∀ (Ps Fs : List (List UInt8)),
    List.Forall₂ (fun P F => CreatePacket P = some F) Ps Fs →
    Fs = Ps.map fun P => uvarintBytes (P.length % 2 ^ 64) ++ P := by
  intro Ps Fs h
  induction h with
  | nil => rfl
  | cons hPF _ ih =>
    rw [CreatePacket_eq] at hPF
    cases hPF
    rw [ih]
    rfl

/-- C4, reader ordering and end-of-input: take payloads `Ps` with packets `Fs`
(each of them a Go slice), cut the byte stream of the packets laid end to end into `chunks` in any way
(each chunk no longer than the scratch buffer), and let the source deliver one
chunk per read and then `io.EOF`.  A fresh reader (`NewPacketReaderSize`, so
with unlimited packet length) returns the payloads in order from its first
`Ps.length` calls of `Read` and `io.EOF` from the next call.  Every call
returns within `chunks.length + 1` loop iterations, and the values returned
depend neither on the cut nor on the size of the scratch buffer. -/
theorem Read_in_order (Ps Fs chunks : List (List UInt8)) (size : Int)
    (r0 : PacketReader (List (List UInt8))) (fuel : Nat)
    (hFs : List.Forall₂ (fun P F => CreatePacket P = some F) Ps Fs)
    (hcut : chunks.flatten = Fs.flatten)
    (hsize : ∀ c ∈ chunks, (c.length : Int) ≤ size)
    (hfit : ∀ F ∈ Fs, F.length ≤ maxInt)
    (hr0 : NewPacketReaderSize chunks size = .ok r0)
    (hfuel : chunks.length < fuel) :
    ∃ r1, readCalls chunkReader fuel (Ps.length + 1) r0 =
      some (Ps.map .ok ++ [.error .EOF], r1) := by
  have hFs1 := packets_of_forall₂ Ps Fs hFs
  subst hFs1
  have hr : r0 = ⟨chunks, [], List.replicate size.toNat 0, 0⟩ := by
    unfold NewPacketReaderSize at hr0
    split at hr0
    · cases hr0
    · cases hr0; rfl
  subst hr
  refine readCalls_stream Ps chunks [] _ fuel (by simpa using hcut)
    (fun P hP => hfit _ (List.mem_map_of_mem _ hP)) ?_ hfuel
  intro c hc
  have := hsize c hc
  rw [List.length_replicate]
  omega

theorem Read_in_order_witness :
    ∃ r1, readCalls chunkReader 5 3
        { r := [[1], [1, 1], [], [2]], data := [], buffer := List.replicate 10 0,
          maxPacketLength := 0 } =
      some ([.ok [1], .ok [2], .error .EOF], r1) :=
  Read_in_order [[1], [2]] [[1, 1], [1, 2]] [[1], [1, 1], [], [2]] 10 _ 5
    (List.Forall₂.cons (by rw [CreatePacket_eq]; simp [uvarintBytes_small])
      (List.Forall₂.cons (by rw [CreatePacket_eq]; simp [uvarintBytes_small]) List.Forall₂.nil))
    (by simp) (by simp) (by simp [maxInt]) rfl (by simp)

/-- C7, length guard: when the maximum packet length `M` of a reader is positive
and its accumulation buffer (a Go slice) holds more than `M` bytes, `Read`
returns `ErrTooLong` on its first loop iteration whatever the buffer starts
with, complete packets included, and whatever the source is; the reader after
the call is the reader before it (source state and accumulation buffer
untouched), so any number of later calls return `ErrTooLong` again and no
packet. -/
theorem Read_length_guard {σ : Type} (rd : Reader σ) (r : PacketReader σ) (fuel : Nat)
    (hM : 0 < r.maxPacketLength) (hlen : r.maxPacketLength < r.data.length)
    (hslice : r.data.length ≤ maxInt) :
    PacketReader.Read rd (fuel + 1) r = .returned (.error .ErrTooLong) r ∧
    ∀ k, readCalls rd (fuel + 1) k r = some (List.replicate k (.error .ErrTooLong), r) := by
  have hmax : maxInt = 2 ^ 63 - 1 := rfl
  have hmod : r.data.length % 2 ^ 64 = r.data.length := Nat.mod_eq_of_lt (by omega)
  have hread : PacketReader.Read rd (fuel + 1) r = .returned (.error .ErrTooLong) r := by
    rw [PacketReader.Read, hmod, if_pos ⟨hM, hlen⟩]
  refine ⟨hread, ?_⟩
  intro k
  induction k with
  | zero => rfl
  | succ k ih => simp [readCalls, hread, ih, List.replicate_succ]

theorem Read_length_guard_witness :
    PacketReader.Read chunkReader 1
        { r := [[9]], data := [1, 1, 1, 2, 1, 3], buffer := [0, 0], maxPacketLength := 5 } =
      .returned (.error .ErrTooLong)
        { r := [[9]], data := [1, 1, 1, 2, 1, 3], buffer := [0, 0], maxPacketLength := 5 } :=
  (Read_length_guard chunkReader
    { r := [[9]], data := [1, 1, 1, 2, 1, 3], buffer := [0, 0], maxPacketLength := 5 } 0
    (by decide) (by decide) (by simp [maxInt])).1

/-- The only errors `SplitPacket` reports are `ErrTooShort` and `ErrOverflow`. -/
theorem SplitPacket_error (d : List UInt8) (e : Error) (h : SplitPacket d = .error e) :
    e = .ErrTooShort ∨ e = .ErrOverflow := by
  unfold SplitPacket at h
  split at h
  · cases h; exact Or.inl rfl
  · split at h
    · cases h
    · simp only at h
      repeat' split at h
      all_goals first
        | (cases h; exact Or.inl rfl)
        | (cases h; exact Or.inr rfl)
        | cases h

/-- Where an error returned by `Read` comes from: the length guard (only with
a positive maximum), an overflow reported by `SplitPacket`, or the source. -/
theorem Read_error_origin {σ : Type} (rd : Reader σ) :
    ∀ (fuel : Nat) (r : PacketReader σ) (e : Error) (r1 : PacketReader σ),
      PacketReader.Read rd fuel r = .returned (.error e) r1 →
      (e = .ErrTooLong ∧ 0 < r.maxPacketLength) ∨ e = .ErrOverflow ∨
        ∃ st p, (rd.Read st p).2.2.1 = some e := by
  intro fuel
  induction fuel with
  | zero =>
    intro r e r1 h
    simp [PacketReader.Read] at h
  | succ fuel ih =>
    intro r e r1 h
    rw [PacketReader.Read] at h
    split at h
    · rename_i hg
      cases h
      exact Or.inl ⟨rfl, hg.1⟩
    · split at h
      · cases h
      · rename_i err hsp
        split at h
        · rename_i hne
          cases h
          rcases SplitPacket_error _ _ hsp with h1 | h1
          · exact absurd h1 hne
          · exact Or.inr (Or.inl h1)
        · split at h
          · rename_i n buffer e1 st heq
            cases h
            exact Or.inr (Or.inr ⟨r.r, r.buffer, by rw [heq]⟩)
          · split at h
            · have h3 := ih _ _ _ h
              exact h3
            · cases h

/-- C8, counterexample: the payload `[3, 4, 5, 6, 7]` has 5 bytes and its packet is
`[5, 3, 4, 5, 6, 7]`, yet a fresh reader with maximum packet length 5 whose
source delivers exactly that packet and then `io.EOF` returns `ErrTooLong` from
its first `Read`; and with maximum 0 a source failing with the error value
`ErrTooLong` makes `Read` return `ErrTooLong`. -/
theorem Read_limit_counts_header :
    (CreatePacket [3, 4, 5, 6, 7] = some [5, 3, 4, 5, 6, 7] ∧
      ∃ r0 r1, NewPacketReaderSize [[5, 3, 4, 5, 6, 7]] 16 = .ok r0 ∧
        PacketReader.Read chunkReader 3 (r0.SetMaxPacketLength 5) =
          .returned (.error .ErrTooLong) r1) ∧
    PacketReader.Read (failingReader .ErrTooLong) 1
        { r := (), data := [], buffer := [0], maxPacketLength := 0 } =
      .returned (.error .ErrTooLong)
        { r := (), data := [], buffer := [0], maxPacketLength := 0 } := by
  refine ⟨⟨?_, _, _, rfl, rfl⟩, rfl⟩
  rw [CreatePacket_eq]
  simp [uvarintBytes_small]

/-- C8, amended: `SetMaxPacketLength M` sets the bound of the length guard of
`Read`.  For every `M > 0` and every payload `P` whose packet `F` (header and
payload) has at most `M` bytes (which makes `M` positive, a packet having at
least one byte), a fresh reader with maximum `M` whose source delivers exactly
`F`, cut into chunks in any way, and then `io.EOF`, returns `P` from its first
`Read`.  With maximum 0, `Read` returns `ErrTooLong` only
when the read of the source fails with that error value: with a source that
never does, no call of `Read` that returns gives `ErrTooLong`. -/
theorem Read_within_limit (M : Nat) (P F : List UInt8) (chunks : List (List UInt8)) (size : Int)
    (r0 : PacketReader (List (List UInt8))) (fuel : Nat)
    (hF : CreatePacket P = some F) (hlen : F.length ≤ M) (hfit : F.length ≤ maxInt)
    (hcut : chunks.flatten = F) (hsize : ∀ c ∈ chunks, (c.length : Int) ≤ size)
    (hr0 : NewPacketReaderSize chunks size = .ok r0) (hfuel : chunks.length < fuel) :
    (∃ r1, PacketReader.Read chunkReader fuel (r0.SetMaxPacketLength M) = .returned (.ok P) r1) ∧
    (∀ (σ : Type) (rd : Reader σ), (∀ st p, (rd.Read st p).2.2.1 ≠ some .ErrTooLong) →
      ∀ (fuel1 : Nat) (r : PacketReader σ) (res : Except Error (List UInt8)) (r1 : PacketReader σ),
        PacketReader.Read rd fuel1 (r.SetMaxPacketLength 0) = .returned res r1 →
        res ≠ .error .ErrTooLong) := by
  constructor
  · rw [CreatePacket_eq] at hF
    cases hF
    have hr : r0 = ⟨chunks, [], List.replicate size.toNat 0, 0⟩ := by
      unfold NewPacketReaderSize at hr0
      split at hr0
      · cases hr0
      · cases hr0; rfl
    subst hr
    obtain ⟨chunks1, d1, buf1, hread, -⟩ :=
      Read_next_packet P [] M hfit (Or.inr (by simpa using hlen)) chunks []
        (List.replicate size.toNat 0) fuel (by simpa using hcut)
        (by
          intro c hc
          have := hsize c hc
          rw [List.length_replicate]
          omega) hfuel
    exact ⟨_, hread⟩
  · intro σ rd hsrc fuel1 r res r1 h hres
    subst hres
    rcases Read_error_origin rd fuel1 _ _ r1 h with ⟨-, h0⟩ | h1 | ⟨st, p, h2⟩
    · simp [PacketReader.SetMaxPacketLength] at h0
    · cases h1
    · exact hsrc st p h2

theorem Read_within_limit_witness :
    ∃ r1, PacketReader.Read chunkReader 3
        (PacketReader.SetMaxPacketLength
          { r := [[4, 3], [4, 5, 6]], data := [], buffer := List.replicate 8 0,
            maxPacketLength := 0 } 5) =
      .returned (.ok [3, 4, 5, 6]) r1 :=
  (Read_within_limit 5 [3, 4, 5, 6] [4, 3, 4, 5, 6] [[4, 3], [4, 5, 6]] 8 _ 3
    (by rw [CreatePacket_eq]; simp [uvarintBytes_small]) (by simp) (by simp [maxInt])
    (by simp) (by simp) rfl (by simp)).1

/-- C9, counterexample: a source whose read fails with the error value
`ErrTooShort` makes `Read` return `ErrTooShort` to its caller. -/
theorem Read_returns_ErrTooShort_of_source :
    PacketReader.Read (failingReader .ErrTooShort) 1
        { r := (), data := [], buffer := [0], maxPacketLength := 0 } =
      .returned (.error .ErrTooShort)
        { r := (), data := [], buffer := [0], maxPacketLength := 0 } := by
  rfl

/-- C9, amended: `Read` returns no `ErrTooShort` of its own.  If the source
never fails with the error value `ErrTooShort`, then for every reader state and
every amount of fuel, a call of `Read` that returns gives a packet or an error
different from `ErrTooShort`. -/
theorem Read_never_ErrTooShort {σ : Type} (rd : Reader σ)
    (hsrc : ∀ st p, (rd.Read st p).2.2.1 ≠ some .ErrTooShort) :
    ∀ (fuel : Nat) (r : PacketReader σ) (res : Except Error (List UInt8)) (r1 : PacketReader σ),
      PacketReader.Read rd fuel r = .returned res r1 → res ≠ .error .ErrTooShort := by
  intro fuel
  induction fuel with
  | zero =>
    intro r res r1 h
    simp [PacketReader.Read] at h
  | succ fuel ih =>
    intro r res r1 h
    rw [PacketReader.Read] at h
    split at h
    · cases h; simp
    · split at h
      · cases h; simp
      · rename_i err hsp
        split at h
        · rename_i hne
          cases h
          simpa using hne
        · have hs := hsrc r.r r.buffer
          split at h
          · rename_i n buffer e st heq
            cases h
            rw [heq] at hs
            simpa using hs
          · split at h
            · exact ih _ _ _ h
            · cases h

theorem Read_never_ErrTooShort_witness :
    (Except.ok [4] : Except Error (List UInt8)) ≠ .error .ErrTooShort :=
  Read_never_ErrTooShort chunkReader
    (by intro st p; cases st <;> simp [chunkReader])
    2 { r := [[1, 4]], data := [], buffer := [0, 0], maxPacketLength := 0 } (.ok [4])
    { r := [], data := [], buffer := [1, 4], maxPacketLength := 0 }
    (by rfl)

/-! ## Headers that run past ten bytes -/

/-- The loop of `Uvarint` walks over leading bytes that carry the continuation
bit, as long as they lie below index `MaxVarintLen64`; only the index, the
accumulator and the shift change. -/
theorem uvarintLoop_skip_continuation : ∀ (l rest : List UInt8) (i x s : Nat),
    (∀ b ∈ l, 0x80 ≤ b.toNat) → i + l.length ≤ 10 →
    ∃ x1 s1, uvarintLoop (l ++ rest) i x s = uvarintLoop rest (i + l.length) x1 s1 := by
  intro l
  induction l with
  | nil => intro rest i x s _ _; exact ⟨x, s, by simp⟩
  | cons b bs ih =>
    intro rest i x s h hlen
    simp only [List.length_cons] at hlen
    have hb : ¬ b.toNat < 0x80 := Nat.not_lt.mpr (h b (List.mem_cons_self _ _))
    obtain ⟨x1, s1, h1⟩ := ih rest (i + 1) (x ||| (((b.toNat &&& 0x7f) <<< s) % 2 ^ 64)) (s + 7)
      (fun c hc => h c (List.mem_cons_of_mem _ hc)) (by omega)
    refine ⟨x1, s1, ?_⟩
    rw [List.cons_append, uvarintLoop_cons _ _ _ _ _ (by omega), if_neg hb, h1]
    simp only [List.length_cons]
    congr 1
    omega

/-- Ten bytes with the continuation bit followed by at least one more byte are
an overflow, whatever the bytes that follow. -/
theorem SplitPacket_past_max (data : List UInt8) (h11 : 11 ≤ data.length)
    (hcont : ∀ b ∈ data.take 10, 0x80 ≤ b.toNat) : SplitPacket data = .error .ErrOverflow := by
  have hlen : (data.take 10).length = 10 := by simp; omega
  obtain ⟨x1, s1, hskip⟩ :=
    uvarintLoop_skip_continuation (data.take 10) (data.drop 10) 0 0 0 hcont (by omega)
  rw [List.take_append_drop, hlen] at hskip
  have hdrop : data.drop 10 ≠ [] := by
    intro h0
    have := congrArg List.length h0
    simp only [List.length_drop, List.length_nil] at this
    omega
  obtain ⟨c, cs, hc⟩ := List.exists_cons_of_ne_nil hdrop
  rw [hc, Nat.zero_add, uvarintLoop_at_max] at hskip
  cases data with
  | nil => simp at h11
  | cons b0 rest =>
    have hb0 : b0 ≠ 0 := by
      intro h0
      have := hcont b0 (by simp)
      rw [h0] at this
      simp at this
    have hU : Uvarint (b0 :: rest) = (0, -11) := hskip
    simp only [SplitPacket, if_neg hb0, hU]
    rw [if_neg (by omega), if_pos (by omega)]

/-- C10, counterexample: ten bytes `0xFF` with nothing after them, a buffer whose
first 10 bytes all have the continuation bit set, are reported as
`ErrTooShort`; so it is not true that every such buffer gives `ErrOverflow`. -/
theorem SplitPacket_ten_continuation_bytes :
    SplitPacket (List.replicate 10 0xFF) = .error .ErrTooShort ∧
    ¬ (∀ data : List UInt8, 10 ≤ data.length → (∀ b ∈ data.take 10, 0x80 ≤ b.toNat) →
        SplitPacket data = .error .ErrOverflow) := by
  have h : SplitPacket (List.replicate 10 0xFF) = .error .ErrTooShort := by rfl
  refine ⟨h, ?_⟩
  intro hall
  have h2 := hall (List.replicate 10 0xFF) (by simp) (by decide)
  rw [h] at h2
  cases h2

/-- C10, amended: for every buffer of at least 11 bytes whose first 10 bytes
all have the continuation bit (0x80) set, `SplitPacket` returns `ErrOverflow`,
whatever the bytes that follow those 10. -/
theorem SplitPacket_oversized_header (data : List UInt8) (h11 : 11 ≤ data.length)
    (hcont : ∀ b ∈ data.take 10, 0x80 ≤ b.toNat) :
    SplitPacket data = .error .ErrOverflow :=
  SplitPacket_past_max data h11 hcont

theorem SplitPacket_oversized_header_witness :
    SplitPacket (List.replicate 10 0xFF ++ [0xFF]) = .error .ErrOverflow :=
  SplitPacket_oversized_header (List.replicate 10 0xFF ++ [0xFF]) (by simp) (by decide)

/-! ## Unterminated headers -/

/-- C11, the code where it departs from the claim and from the test of the
package: fifty bytes `0xFF`, a buffer in which every byte has the continuation
bit set, are reported as `ErrOverflow`, not as `ErrTooShort`, and so are
eleven bytes `0xFF`.  In general such a buffer is reported as `ErrTooShort`
when it has at most ten bytes (one byte `0xFF`, ten bytes `0xFF`) and as
`ErrOverflow` when it has eleven or more. -/
theorem SplitPacket_long_unterminated_header :
    SplitPacket (List.replicate 50 0xFF) = .error .ErrOverflow ∧
    SplitPacket (List.replicate 11 0xFF) = .error .ErrOverflow ∧
    SplitPacket [0xFF] = .error .ErrTooShort ∧
    SplitPacket (List.replicate 10 0xFF) = .error .ErrTooShort ∧
    (∀ data : List UInt8, (∀ b ∈ data, 0x80 ≤ b.toNat) → data.length ≤ 10 →
      SplitPacket data = .error .ErrTooShort) ∧
    (∀ data : List UInt8, (∀ b ∈ data, 0x80 ≤ b.toNat) → 11 ≤ data.length →
      SplitPacket data = .error .ErrOverflow) := by
  refine ⟨by rfl, by rfl, by rfl, by rfl, ?_, ?_⟩
  · intro data hcont hlen
    exact SplitPacket_all_continuation data hcont hlen
  · intro data hcont hlen
    exact SplitPacket_past_max data hlen (fun b hb => hcont b (List.mem_of_mem_take hb))

/-! ## `WritePacket` -/

/-- The calls of `Write` made by `WritePacket`, spelled out with the header
that `CreatePacket` puts in front of the data. -/
theorem WritePacket_eq {σ : Type} (wr : Writer σ) (w : σ) (data : List UInt8) :
    WritePacket wr w data =
      match (wr.Write w (uvarintBytes (data.length % 2 ^ 64))).2.1 with
      | some err =>
        some { err := some err, writes := [uvarintBytes (data.length % 2 ^ 64)],
               w := (wr.Write w (uvarintBytes (data.length % 2 ^ 64))).2.2 }
      | none =>
        some { err := (wr.Write (wr.Write w (uvarintBytes (data.length % 2 ^ 64))).2.2 data).2.1,
               writes := [uvarintBytes (data.length % 2 ^ 64), data],
               w := (wr.Write (wr.Write w (uvarintBytes (data.length % 2 ^ 64))).2.2 data).2.2 } := by
  have hx : data.length % 2 ^ 64 < 2 ^ 64 := Nat.mod_lt _ (by norm_num)
  have hput := PutUvarint_eq _ hx
  have htake : (uvarintBytes (data.length % 2 ^ 64) ++
      (List.replicate MaxPacketHeaderLength (0 : UInt8)).drop
        (uvarintBytes (data.length % 2 ^ 64)).length).take
        (uvarintBytes (data.length % 2 ^ 64)).length = uvarintBytes (data.length % 2 ^ 64) := by
    simp
  unfold WritePacket
  simp only [hput, htake]
  rcases hw1 : wr.Write w (uvarintBytes (data.length % 2 ^ 64)) with ⟨n1, e1, w1⟩
  cases e1 with
  | some e => rfl
  | none => simp only

/-- C12, `WritePacket` agrees with `CreatePacket`: for every payload `P` and
every sink on which all writes succeed, `WritePacket` returns no error, it
calls `Write` exactly twice, first with the header and then with the payload,
and the bytes handed to the sink, concatenated in write order, are
`CreatePacket P`. -/
theorem WritePacket_agrees_with_CreatePacket {σ : Type} (wr : Writer σ) (w : σ)
    (P : List UInt8) (hok : ∀ st p, (wr.Write st p).2.1 = none) :
    ∃ h F res, CreatePacket P = some F ∧ F = h ++ P ∧ WritePacket wr w P = some res ∧
      res.err = none ∧ res.writes = [h, P] ∧ res.writes.flatten = F ∧
      res.w = (wr.Write (wr.Write w h).2.2 P).2.2 := by
  have hW := WritePacket_eq wr w P
  rw [hok] at hW
  simp only at hW
  refine ⟨uvarintBytes (P.length % 2 ^ 64), _, _, CreatePacket_eq P, rfl, hW, hok _ _, rfl, ?_, rfl⟩
  simp

theorem WritePacket_agrees_with_CreatePacket_witness :
    ∃ res, WritePacket bufferWriter [] [1, 2, 3, 4] = some res ∧ res.err = none ∧
      res.writes = [[4], [1, 2, 3, 4]] ∧ res.w = [4, 1, 2, 3, 4] := by
  obtain ⟨h, F, res, hF, hhF, hres, herr, hwrites, -, hw⟩ :=
    WritePacket_agrees_with_CreatePacket bufferWriter [] [1, 2, 3, 4] (by intro st p; rfl)
  rw [CreatePacket_eq] at hF
  have hh : h = [4] := by
    have h5 : h ++ [1, 2, 3, 4] = [4] ++ [1, 2, 3, 4] := by
      rw [← hhF, ← Option.some.inj hF]
      simp [uvarintBytes_small]
    exact List.append_cancel_right h5
  subst hh
  exact ⟨res, hres, herr, hwrites, hw⟩

/-- C13, `WritePacket` stops at the first write error and returns it unchanged.
If the write of the header fails with `e`, `WritePacket` returns `e`, the
header write is the only call made on the sink (the payload write is never
attempted) and the sink is left as that call left it.  If the write of the
header succeeds and the write of the payload fails with `e`, `WritePacket`
returns `e` after exactly these two calls, and the sink is left as the failed
payload write left it on top of the header write: nothing is rolled back. -/
theorem WritePacket_first_error {σ : Type} (wr : Writer σ) (w : σ) (P : List UInt8) (e : Error) :
    ∃ h, CreatePacket P = some (h ++ P) ∧
      ((wr.Write w h).2.1 = some e →
        WritePacket wr w P =
          some { err := some e, writes := [h], w := (wr.Write w h).2.2 }) ∧
      ((wr.Write w h).2.1 = none → (wr.Write (wr.Write w h).2.2 P).2.1 = some e →
        WritePacket wr w P =
          some { err := some e, writes := [h, P],
                 w := (wr.Write (wr.Write w h).2.2 P).2.2 }) := by
  refine ⟨uvarintBytes (P.length % 2 ^ 64), CreatePacket_eq P, ?_, ?_⟩
  · intro h1
    rw [WritePacket_eq, h1]
  · intro h1 h2
    rw [WritePacket_eq, h1]
    simp only [h2]

/-- C13, instances: a sink that rejects every write gets the header write only
and its error comes back; a sink with room for one byte keeps the header byte
`[4]` when the write of the payload `[1, 2, 3, 4]` fails. -/
theorem WritePacket_first_error_witness :
    WritePacket (boundedWriter 0 (.other 7)) [] [1, 2, 3, 4] =
      some { err := some (.other 7), writes := [[4]], w := [] } ∧
    WritePacket (boundedWriter 1 (.other 7)) [] [1, 2, 3, 4] =
      some { err := some (.other 7), writes := [[4], [1, 2, 3, 4]], w := [4] } := by
  have hh : ∀ h : List UInt8, CreatePacket [1, 2, 3, 4] = some (h ++ [1, 2, 3, 4]) → h = [4] := by
    intro h hF
    rw [CreatePacket_eq] at hF
    have h5 : h ++ [1, 2, 3, 4] = [4] ++ [1, 2, 3, 4] := by
      rw [← Option.some.inj hF]
      simp [uvarintBytes_small]
    exact List.append_cancel_right h5
  constructor
  · obtain ⟨h, hF, h1, -⟩ :=
      WritePacket_first_error (boundedWriter 0 (.other 7)) [] [1, 2, 3, 4] (.other 7)
    have := hh h hF
    subst this
    exact h1 rfl
  · obtain ⟨h, hF, -, h2⟩ :=
      WritePacket_first_error (boundedWriter 1 (.other 7)) [] [1, 2, 3, 4] (.other 7)
    have := hh h hF
    subst this
    exact h2 rfl rfl

/-! ## Construction of a reader -/

/-- C15, configuration fault: `NewPacketReaderSize r size` panics with the
message "size must be greater than 0" if and only if `size ≤ 0`; for every
`size > 0` it returns a reader on `r` whose scratch buffer has exactly `size`
bytes, whose accumulation buffer is empty and whose maximum packet length is 0;
and `NewPacketReader r` is `NewPacketReaderSize r 1024`. -/
theorem NewPacketReaderSize_spec {σ : Type} (r : σ) :
    (∀ size : Int,
      (NewPacketReaderSize r size = .error "size must be greater than 0" ↔ size ≤ 0) ∧
      ((∃ msg, NewPacketReaderSize r size = .error msg) ↔ size ≤ 0)) ∧
    (∀ size : Int, 0 < size →
      ∃ pr, NewPacketReaderSize r size = .ok pr ∧ pr.r = r ∧
        (pr.buffer.length : Int) = size ∧ pr.data = [] ∧ pr.maxPacketLength = 0) ∧
    NewPacketReader r = NewPacketReaderSize r 1024 := by
  refine ⟨?_, ?_, rfl⟩
  · intro size
    unfold NewPacketReaderSize
    by_cases h : size ≤ 0
    · simp [h]
    · simp [h]
  · intro size h
    unfold NewPacketReaderSize
    rw [if_neg (by omega)]
    refine ⟨_, rfl, rfl, ?_, rfl, rfl⟩
    simp only [List.length_replicate]
    omega

/-! ## The packet stream as a state machine -/

/-- Once the background task has returned, running it further changes nothing. -/
theorem thread_exited {σ : Type} (rd : Reader σ) (fuel : Nat) (s : PacketStream σ)
    (h : s.exited = true) : ∀ n, PacketStream.thread rd fuel n s = some s := by
  intro n
  induction n with
  | zero => rfl
  | succ n ih => simp [PacketStream.thread, PacketStream.threadStep, h, ih]

theorem threadStep_wellFormed {σ : Type} (rd : Reader σ) (fuel : Nat) (s s1 : PacketStream σ)
    (hs : s.wellFormed) (h : PacketStream.threadStep rd fuel s = some s1) : s1.wellFormed := by
  unfold PacketStream.threadStep at h
  split at h
  · cases h; exact hs
  · rename_i hex
    rcases hs with ⟨-, herr, hcl⟩ | ⟨hex1, -⟩
    · split at h
      · cases h
        exact Or.inr ⟨rfl, ⟨_, rfl⟩, by simp [hcl]⟩
      · cases h
        exact Or.inl ⟨by simpa using hex, herr, hcl⟩
      · cases h
    · exact absurd hex1 hex

theorem thread_wellFormed {σ : Type} (rd : Reader σ) (fuel : Nat) :
    ∀ (n : Nat) (s s1 : PacketStream σ), s.wellFormed →
      PacketStream.thread rd fuel n s = some s1 → s1.wellFormed := by
  intro n
  induction n with
  | zero =>
    intro s s1 hs h
    simp only [PacketStream.thread, Option.some.injEq] at h
    subst h
    exact hs
  | succ n ih =>
    intro s s1 hs h
    simp only [PacketStream.thread] at h
    split at h
    · cases h
    · rename_i s2 hstep
      exact ih s2 s1 (threadStep_wellFormed rd fuel s s2 hs hstep) h

/-- While the reads succeed the running task hands their packets over, in order. -/
theorem thread_of_reads_ok {σ : Type} (rd : Reader σ) (fuel : Nat) :
    ∀ (Ps : List (List UInt8)) (r0 rk : PacketReader σ) (sent : List (List UInt8)),
      readCalls rd fuel Ps.length r0 = some (Ps.map .ok, rk) →
      PacketStream.thread rd fuel Ps.length
          { r := r0, ch := sent, closes := 0, err := none, exited := false } =
        some { r := rk, ch := sent ++ Ps, closes := 0, err := none, exited := false } := by
  intro Ps
  induction Ps with
  | nil =>
    intro r0 rk sent h
    simp only [List.length_nil, readCalls, List.map_nil, Option.some.injEq, Prod.mk.injEq,
      true_and] at h
    subst h
    simp [PacketStream.thread]
  | cons P Ps ih =>
    intro r0 rk sent h
    simp only [List.length_cons, readCalls, List.map_cons] at h
    split at h
    · rename_i res r1 hread
      split at h
      · cases h
      · rename_i rs r2 hrest
        simp only [Option.some.injEq, Prod.mk.injEq, List.cons.injEq] at h
        obtain ⟨⟨hres, hrs⟩, hr2⟩ := h
        subst hres hrs hr2
        have := ih r1 r2 (sent ++ [P]) hrest
        simp only [List.length_cons, PacketStream.thread, PacketStream.threadStep, hread]
        simpa using this
    · cases h

/-- The packets handed over by the task are those returned by the calls of
`Read` made so far, and the recorded error, if any, is what the last of these
calls returned. -/
theorem thread_reads {σ : Type} (rd : Reader σ) (fuel : Nat) :
    ∀ (n : Nat) (r0 : PacketReader σ) (sent : List (List UInt8)) (s : PacketStream σ),
      PacketStream.thread rd fuel n
          { r := r0, ch := sent, closes := 0, err := none, exited := false } = some s →
      ∃ k Qs, k ≤ n ∧ s.ch = sent ++ Qs ∧
        readCalls rd fuel k r0 = some (Qs.map .ok ++ s.err.toList.map .error, s.r) := by
  intro n
  induction n with
  | zero =>
    intro r0 sent s h
    simp only [PacketStream.thread, Option.some.injEq] at h
    subst h
    exact ⟨0, [], le_refl _, by simp, by simp [readCalls]⟩
  | succ n ih =>
    intro r0 sent s h
    simp only [PacketStream.thread, PacketStream.threadStep, Bool.false_eq_true, if_false] at h
    split at h
    · cases h
    · rename_i s1 hstep
      split at hstep
      · rename_i e r1 hread
        simp only [Option.some.injEq] at hstep
        subst hstep
        rw [thread_exited rd fuel _ rfl n] at h
        simp only [Option.some.injEq] at h
        subst h
        exact ⟨1, [], by omega, by simp, by simp [readCalls, hread]⟩
      · rename_i data r1 hread
        simp only [Option.some.injEq] at hstep
        subst hstep
        obtain ⟨k, Qs, hk, hch, hcalls⟩ := ih r1 (sent ++ [data]) s h
        refine ⟨k + 1, data :: Qs, by omega, by simp [hch], ?_⟩
        simp [readCalls, hread, hcalls]
      · cases hstep

/-- When the reads succeed and the next one fails, the task hands the packets
over, records the error, closes the channel and returns. -/
theorem thread_of_reads_err {σ : Type} (rd : Reader σ) (fuel : Nat) :
    ∀ (Ps : List (List UInt8)) (r0 rk : PacketReader σ) (sent : List (List UInt8)) (e : Error),
      readCalls rd fuel (Ps.length + 1) r0 = some (Ps.map .ok ++ [.error e], rk) →
      ∀ m, PacketStream.thread rd fuel (Ps.length + m + 1)
          { r := r0, ch := sent, closes := 0, err := none, exited := false } =
        some { r := rk, ch := sent ++ Ps, closes := 1, err := some e, exited := true } := by
  intro Ps
  induction Ps with
  | nil =>
    intro r0 rk sent e h m
    simp only [List.length_nil, readCalls, List.map_nil, List.nil_append, Nat.zero_add] at h
    split at h
    · rename_i res r1 hread
      simp only [Option.some.injEq, Prod.mk.injEq, List.cons.injEq, and_true] at h
      obtain ⟨hres, hr1⟩ := h
      subst hres hr1
      simp only [List.length_nil, Nat.zero_add, PacketStream.thread, PacketStream.threadStep,
        hread, Bool.false_eq_true, if_false]
      rw [thread_exited rd fuel _ rfl m]
      simp
    · cases h
  | cons P Ps ih =>
    intro r0 rk sent e h m
    simp only [List.length_cons, List.map_cons, List.cons_append] at h
    rw [readCalls] at h
    split at h
    · rename_i res r1 hread
      split at h
      · cases h
      · rename_i rs r2 hrest
        simp only [Option.some.injEq, Prod.mk.injEq, List.cons.injEq] at h
        obtain ⟨⟨hres, hrs⟩, hr2⟩ := h
        subst hres hrs hr2
        have := ih r1 r2 (sent ++ [P]) e hrest m
        rw [show (P :: Ps).length + m + 1 = (Ps.length + m + 1) + 1 by simp; omega,
          PacketStream.thread]
        simp only [PacketStream.threadStep, hread, Bool.false_eq_true, if_false]
        simpa using this
    · cases h

/-- C14, packet stream state machine, the background task being run iteration
by iteration from a fresh stream on the reader `r0`.  (1) Every state reached
is either Running, with no terminal error and the channel open, or Terminated,
with a terminal error set and the channel closed exactly once; a Terminated
state is absorbing: further iterations leave reader, channel and error as they
are.  (2) In every state reached the packets handed over are exactly the
packets returned by the calls of `Read` made so far, in order, and the
terminal error, when set, is the error of the last call.  (3) If the first
`Ps.length` calls of `Read` return the packets `Ps`, the stream is Running
after as many iterations, having handed over `Ps`.  (4) If the next call
returns the error `e`, then after one more iteration, and after any number of
further ones, the stream is Terminated with terminal error `e`, the channel
closed once, `Ps` handed over and the reader as that call left it. -/
theorem thread_state_machine {σ : Type} (rd : Reader σ) (fuel : Nat) (r0 : PacketReader σ) :
    (∀ n s, PacketStream.thread rd fuel n
          { r := r0, ch := [], closes := 0, err := none, exited := false } = some s →
        ((s.exited = false ∧ s.err = none ∧ s.closes = 0) ∨
          (s.exited = true ∧ (∃ e, s.err = some e) ∧ s.closes = 1)) ∧
        (s.exited = true → ∀ m, PacketStream.thread rd fuel m s = some s)) ∧
    (∀ n s, PacketStream.thread rd fuel n
          { r := r0, ch := [], closes := 0, err := none, exited := false } = some s →
        ∃ k, k ≤ n ∧
          readCalls rd fuel k r0 = some (s.ch.map .ok ++ s.err.toList.map .error, s.r)) ∧
    (∀ Ps rk, readCalls rd fuel Ps.length r0 = some (Ps.map .ok, rk) →
        PacketStream.thread rd fuel Ps.length
            { r := r0, ch := [], closes := 0, err := none, exited := false } =
          some { r := rk, ch := Ps, closes := 0, err := none, exited := false }) ∧
    (∀ Ps e rk, readCalls rd fuel (Ps.length + 1) r0 = some (Ps.map .ok ++ [.error e], rk) →
        ∀ m, PacketStream.thread rd fuel (Ps.length + 1 + m)
            { r := r0, ch := [], closes := 0, err := none, exited := false } =
          some { r := rk, ch := Ps, closes := 1, err := some e, exited := true }) := by
  refine ⟨?_, ?_, ?_, ?_⟩
  · intro n s h
    exact ⟨thread_wellFormed rd fuel n _ s (Or.inl ⟨rfl, rfl, rfl⟩) h,
      fun hex => thread_exited rd fuel s hex⟩
  · intro n s h
    obtain ⟨k, Qs, hk, hch, hcalls⟩ := thread_reads rd fuel n r0 [] s h
    simp only [List.nil_append] at hch
    exact ⟨k, hk, by rw [hch]; exact hcalls⟩
  · intro Ps rk h
    have := thread_of_reads_ok rd fuel Ps r0 rk [] h
    simpa using this
  · intro Ps e rk h m
    have := thread_of_reads_err rd fuel Ps r0 rk [] e h m
    rw [show Ps.length + 1 + m = Ps.length + m + 1 by omega]
    simpa using this

theorem thread_state_machine_witness :
    PacketStream.thread chunkReader 5 4
        { r := { r := [[1, 1], [1, 2]], data := [], buffer := [0, 0, 0, 0], maxPacketLength := 0 },
          ch := [], closes := 0, err := none, exited := false } =
      some { r := { r := [], data := [], buffer := [1, 2, 0, 0], maxPacketLength := 0 },
             ch := [[1], [2]], closes := 1, err := some .EOF, exited := true } :=
  (thread_state_machine chunkReader 5
    { r := [[1, 1], [1, 2]], data := [], buffer := [0, 0, 0, 0], maxPacketLength := 0 }).2.2.2
    [[1], [2]] .EOF _ rfl 1

/-! ## Lengths outside the range of `int` -/

/-- The value decoded by `Uvarint` is a `uint64`. -/
theorem uvarintLoop_value_lt : ∀ (l : List UInt8) (i x s : Nat), x < 2 ^ 64 →
    (uvarintLoop l i x s).1 < 2 ^ 64 := by
  intro l
  induction l with
  | nil => intro i x s _; simp [uvarintLoop]
  | cons b bs ih =>
    intro i x s hx
    rw [uvarintLoop]
    split_ifs
    · simp
    · simp
    · exact Nat.or_lt_two_pow hx (Nat.mod_lt _ (by norm_num))
    · exact ih _ _ _ (Nat.or_lt_two_pow hx (Nat.mod_lt _ (by norm_num)))

/-- The number of bytes read reported by `Uvarint` never exceeds
`MaxVarintLen64`. -/
theorem uvarintLoop_count_le : ∀ (l : List UInt8) (i x s : Nat), i ≤ 10 →
    (uvarintLoop l i x s).2 ≤ 10 := by
  intro l
  induction l with
  | nil => intro i x s _; simp [uvarintLoop]
  | cons b bs ih =>
    intro i x s hi
    rw [uvarintLoop]
    split_ifs with h10 hb hc
    · simp only; omega
    · simp only; omega
    · simp only [MaxVarintLen64] at h10
      simp only
      omega
    · simp only [MaxVarintLen64] at h10
      exact ih _ _ _ (by omega)

/-- A complete header whose value is 0, or does not fit the positive range of
`int`, or leaves no room for the header in that range, is an overflow. -/
theorem SplitPacket_overflow_of_range (data : List UInt8) (v : Nat) (headerLength : Int)
    (hfirst : data.head? ≠ some 0) (hU : Uvarint data = (v, headerLength))
    (hcomplete : 0 < headerLength)
    (hrange : v = 0 ∨ 2 ^ 63 ≤ v ∨ (v : Int) + headerLength > 2 ^ 63 - 1) :
    SplitPacket data = .error .ErrOverflow := by
  have hv : v < 2 ^ 64 := by
    have := uvarintLoop_value_lt data 0 0 0 (by norm_num)
    rw [show uvarintLoop data 0 0 0 = Uvarint data from rfl, hU] at this
    exact this
  have hl : headerLength ≤ 10 := by
    have := uvarintLoop_count_le data 0 0 0 (by omega)
    rw [show uvarintLoop data 0 0 0 = Uvarint data from rfl, hU] at this
    exact this
  cases data with
  | nil =>
    have h2 : (0 : Int) = headerLength := congrArg Prod.snd hU
    omega
  | cons b0 rest =>
    have hb0 : b0 ≠ 0 := by
      intro h0
      simp [h0] at hfirst
    simp only [SplitPacket, if_neg hb0, hU]
    rw [if_neg (by omega), if_neg (by omega)]
    have hmod : v % 2 ^ 64 = v := Nat.mod_eq_of_lt hv
    by_cases hle : toInt v ≤ 0
    · rw [if_pos hle]
    · rw [if_neg hle]
      have hti : toInt v = (v : Int) ∧ 0 < v ∧ v < 2 ^ 63 := by
        unfold toInt at hle ⊢
        rw [hmod] at hle ⊢
        split at hle
        · rename_i hlt
          rw [if_pos hlt]
          exact ⟨rfl, by omega, hlt⟩
        · omega
      obtain ⟨hti, hpos, hlt⟩ := hti
      rw [hti]
      have hsum : (v : Int) + headerLength > 2 ^ 63 - 1 := by
        rcases hrange with h | h | h
        · omega
        · omega
        · exact h
      have hw : wrapInt ((v : Int) + headerLength) ≤ 0 := by
        unfold wrapInt
        omega
      rw [if_pos hw]

/-- C16, length-range rejection with the 64-bit `int`: for every buffer whose
first byte is non-zero and on which `Uvarint` reads a complete header of
`headerLength > 0` bytes with value `v`, `SplitPacket` returns `ErrOverflow`,
whatever follows the header, whenever `v = 0`, or `v ≥ 2 ^ 63`, or
`v + headerLength > 2 ^ 63 - 1`.  So it does for `[0x80, 0x00]`, for nine bytes
`0xFF` followed by `0x00`, and for nine bytes `0xFF` followed by `0x01, 0x00`. -/
theorem SplitPacket_length_out_of_range (data : List UInt8) (v : Nat) (headerLength : Int)
    (hfirst : data.head? ≠ some 0) (hU : Uvarint data = (v, headerLength))
    (hcomplete : 0 < headerLength)
    (hrange : v = 0 ∨ 2 ^ 63 ≤ v ∨ (v : Int) + headerLength > 2 ^ 63 - 1) :
    SplitPacket data = .error .ErrOverflow ∧
    SplitPacket [0x80, 0x00] = .error .ErrOverflow ∧
    SplitPacket (List.replicate 9 0xFF ++ [0x00]) = .error .ErrOverflow ∧
    SplitPacket (List.replicate 9 0xFF ++ [0x01, 0x00]) = .error .ErrOverflow := by
  exact ⟨SplitPacket_overflow_of_range data v headerLength hfirst hU hcomplete hrange,
    by rfl, by rfl, by rfl⟩

theorem SplitPacket_length_out_of_range_witness :
    SplitPacket ([0x80, 0x80, 0x00, 0x07] : List UInt8) = .error .ErrOverflow :=
  (SplitPacket_length_out_of_range [0x80, 0x80, 0x00, 0x07] 0 3 (by decide) (by rfl)
    (by decide) (Or.inl rfl)).1

/-! ## Overflow is permanent -/

/-- Once `Uvarint` has stopped at a byte of the buffer (a count other than 0),
bytes appended to the buffer do not change what it returns. -/
theorem uvarintLoop_append_stable : ∀ (l e : List UInt8) (i x s : Nat),
    (uvarintLoop l i x s).2 ≠ 0 → uvarintLoop (l ++ e) i x s = uvarintLoop l i x s := by
  intro l
  induction l with
  | nil => intro e i x s h; simp [uvarintLoop] at h
  | cons b bs ih =>
    intro e i x s h
    rw [List.cons_append, uvarintLoop, uvarintLoop]
    rw [uvarintLoop] at h
    by_cases h10 : i = MaxVarintLen64
    · simp only [if_pos h10]
    · simp only [if_neg h10] at h ⊢
      by_cases hb : b.toNat < 0x80
      · simp only [if_pos hb]
      · simp only [if_neg hb] at h ⊢
        exact ih e _ _ _ h

/-- Bytes appended to a buffer that `SplitPacket` rejects with `ErrOverflow`
do not change the verdict. -/
theorem SplitPacket_append_overflow (b e : List UInt8)
    (h : SplitPacket b = .error .ErrOverflow) : SplitPacket (b ++ e) = .error .ErrOverflow := by
  cases b with
  | nil => simp [SplitPacket] at h
  | cons b0 rest =>
    by_cases hb0 : b0 = 0
    · simp [SplitPacket, hb0] at h
    · simp only [SplitPacket, if_neg hb0] at h
      by_cases h0 : (Uvarint (b0 :: rest)).2 = 0
      · rw [if_pos h0] at h
        cases h
      · have hU : Uvarint (b0 :: rest ++ e) = Uvarint (b0 :: rest) :=
          uvarintLoop_append_stable (b0 :: rest) e 0 0 0 h0
        rw [if_neg h0] at h
        simp only [List.cons_append, SplitPacket, if_neg hb0]
        rw [show Uvarint (b0 :: (rest ++ e)) = Uvarint (b0 :: rest) from hU, if_neg h0]
        by_cases h1 : (Uvarint (b0 :: rest)).2 < 0
        · rw [if_pos h1]
        · rw [if_neg h1] at h ⊢
          by_cases h2 : toInt (Uvarint (b0 :: rest)).1 ≤ 0
          · rw [if_pos h2]
          · rw [if_neg h2] at h ⊢
            by_cases h3 : wrapInt (toInt (Uvarint (b0 :: rest)).1 + (Uvarint (b0 :: rest)).2) ≤ 0
            · rw [if_pos h3]
            · rw [if_neg h3] at h
              split at h <;> cases h

/-- A reader on whose accumulation buffer `SplitPacket` reports `ErrOverflow`,
the length guard not firing, returns `ErrOverflow` from `Read` and stays as it
is. -/
theorem Read_overflow_again {σ : Type} (rd : Reader σ) (r : PacketReader σ) (fuel : Nat)
    (hg : ¬ (0 < r.maxPacketLength ∧ r.maxPacketLength < r.data.length % 2 ^ 64))
    (hsp : SplitPacket r.data = .error .ErrOverflow) :
    PacketReader.Read rd (fuel + 1) r = .returned (.error .ErrOverflow) r := by
  rw [Read_succ_guard_off rd fuel r hg, hsp]
  simp

/-- A call of `Read` that returns `ErrOverflow`, on a source that never fails
with that error value, leaves a reader on whose accumulation buffer
`SplitPacket` reports `ErrOverflow`, the length guard not firing. -/
theorem Read_overflow_state {σ : Type} (rd : Reader σ)
    (hsrc : ∀ st p, (rd.Read st p).2.2.1 ≠ some .ErrOverflow) :
    ∀ (fuel : Nat) (r r1 : PacketReader σ),
      PacketReader.Read rd fuel r = .returned (.error .ErrOverflow) r1 →
      SplitPacket r1.data = .error .ErrOverflow ∧
      ¬ (0 < r1.maxPacketLength ∧ r1.maxPacketLength < r1.data.length % 2 ^ 64) := by
  intro fuel
  induction fuel with
  | zero =>
    intro r r1 h
    simp [PacketReader.Read] at h
  | succ fuel ih =>
    intro r r1 h
    rw [PacketReader.Read] at h
    split at h
    · cases h
    · rename_i hg
      split at h
      · cases h
      · rename_i err hsp
        split at h
        · simp only [ReadOutcome.returned.injEq, Except.error.injEq] at h
          obtain ⟨herr, hr⟩ := h
          subst herr hr
          exact ⟨hsp, hg⟩
        · have hs := hsrc r.r r.buffer
          split at h
          · rename_i n buffer e st heq
            simp only [ReadOutcome.returned.injEq, Except.error.injEq] at h
            rw [heq] at hs
            exact absurd (by rw [h.1]) hs
          · split at h
            · exact ih _ _ h
            · cases h

/-- C17, counterexample: a source whose first read fails with the error value
`ErrOverflow` and whose second read delivers the packet `[1, 4]` makes `Read`
return `ErrOverflow` and then, on the next call, the packet `[4]`. -/
theorem Read_after_source_ErrOverflow :
    PacketReader.Read scriptReader 2
        { r := [([], some .ErrOverflow), ([1, 4], none)], data := [], buffer := [0, 0],
          maxPacketLength := 0 } =
      .returned (.error .ErrOverflow)
        { r := [([1, 4], none)], data := [], buffer := [0, 0], maxPacketLength := 0 } ∧
    PacketReader.Read scriptReader 2
        { r := [([1, 4], none)], data := [], buffer := [0, 0], maxPacketLength := 0 } =
      .returned (.ok [4]) { r := [], data := [], buffer := [1, 4], maxPacketLength := 0 } :=
  ⟨rfl, rfl⟩

/-- C17, amended: overflow never self-heals.  For all byte sequences `b` and
`e`, if `SplitPacket b` returns `ErrOverflow` then so does `SplitPacket (b ++ e)`.
Consequently, on a source that never fails with the error value `ErrOverflow`,
a reader whose `Read` returned `ErrOverflow` returns `ErrOverflow` from every
later `Read` (its maximum packet length being left alone), on the first loop
iteration and without touching the source or the accumulation buffer. -/
theorem overflow_never_heals :
    (∀ b e : List UInt8, SplitPacket b = .error .ErrOverflow →
      SplitPacket (b ++ e) = .error .ErrOverflow) ∧
    (∀ (σ : Type) (rd : Reader σ), (∀ st p, (rd.Read st p).2.2.1 ≠ some .ErrOverflow) →
      ∀ (fuel : Nat) (r r1 : PacketReader σ),
        PacketReader.Read rd fuel r = .returned (.error .ErrOverflow) r1 →
        ∀ fuel1 k, readCalls rd (fuel1 + 1) k r1 =
          some (List.replicate k (.error .ErrOverflow), r1)) := by
  refine ⟨SplitPacket_append_overflow, ?_⟩
  intro σ rd hsrc fuel r r1 h fuel1 k
  obtain ⟨hsp, hg⟩ := Read_overflow_state rd hsrc fuel r r1 h
  have hread := Read_overflow_again rd r1 fuel1 hg hsp
  induction k with
  | zero => rfl
  | succ k ih => simp [readCalls, hread, ih, List.replicate_succ]

theorem overflow_never_heals_witness :
    readCalls chunkReader 1 3
        { r := [], data := [0x80, 0x00], buffer := [0x80, 0x00], maxPacketLength := 0 } =
      some (List.replicate 3 (.error .ErrOverflow),
        { r := [], data := [0x80, 0x00], buffer := [0x80, 0x00], maxPacketLength := 0 }) :=
  overflow_never_heals.2 _ chunkReader (by intro st p; cases st <;> simp [chunkReader])
    2 { r := [[0x80, 0x00]], data := [], buffer := [0, 0], maxPacketLength := 0 }
    { r := [], data := [0x80, 0x00], buffer := [0x80, 0x00], maxPacketLength := 0 } (by rfl) 0 3

/-! ## Bytes delivered together with an error -/

/-- C19, the code at an input where it departs from the claim: a source whose
read delivers the two bytes of the packet `[1, 7]` together with `io.EOF`.
`Read` returns `io.EOF` and its accumulation buffer stays empty: the two bytes,
which sit in the scratch buffer, are not appended, and the next `Read` reads
the source again instead of returning the packet `[7]`. -/
theorem Read_drops_bytes_delivered_with_error :
    PacketReader.Read scriptReader 2
        { r := [([1, 7], some .EOF)], data := [], buffer := [0, 0], maxPacketLength := 0 } =
      .returned (.error .EOF)
        { r := [], data := [], buffer := [1, 7], maxPacketLength := 0 } ∧
    PacketReader.Read scriptReader 2
        { r := [], data := [], buffer := [1, 7], maxPacketLength := 0 } =
      .returned (.error .EOF)
        { r := [], data := [], buffer := [1, 7], maxPacketLength := 0 } ∧
    SplitPacket ([] ++ [1, 7]) = .ok ([7], []) :=
  ⟨rfl, rfl, rfl⟩

/-! ## The bound on returned packets -/

theorem toInt_lt (x : Nat) : toInt x < 2 ^ 63 := by
  unfold toInt
  have := Nat.mod_lt x (show 0 < 2 ^ 64 by norm_num)
  split <;> omega

/-- A successful `SplitPacket` cuts the buffer into a header of one to ten
bytes, the packet and the remainder. -/
theorem SplitPacket_ok_length (d p next : List UInt8) (h : SplitPacket d = .ok (p, next)) :
    ∃ hl : Nat, 1 ≤ hl ∧ hl ≤ 10 ∧ d.length = hl + p.length + next.length := by
  cases d with
  | nil => simp [SplitPacket] at h
  | cons b0 rest =>
    by_cases hb0 : b0 = 0
    · simp only [SplitPacket, if_pos hb0, Except.ok.injEq, Prod.mk.injEq] at h
      obtain ⟨hp, hn⟩ := h
      subst hp hn
      exact ⟨1, le_refl _, by norm_num, by simp; omega⟩
    · simp only [SplitPacket, if_neg hb0] at h
      have hcount := uvarintLoop_count_le (b0 :: rest) 0 0 0 (by omega)
      rw [show uvarintLoop (b0 :: rest) 0 0 0 = Uvarint (b0 :: rest) from rfl] at hcount
      have hv := toInt_lt (Uvarint (b0 :: rest)).1
      generalize (Uvarint (b0 :: rest)).2 = hl at h hcount
      generalize toInt (Uvarint (b0 :: rest)).1 = v at h hv
      split at h
      · cases h
      · split at h
        · cases h
        · split at h
          · cases h
          · split at h
            · cases h
            · split at h
              · cases h
              · rename_i h0 h1 h2 h3 h4
                simp only [Except.ok.injEq, Prod.mk.injEq] at h
                obtain ⟨hp, hn⟩ := h
                have hcomm : wrapInt (hl + v) = wrapInt (v + hl) := by rw [Int.add_comm]
                rw [hcomm] at hp hn
                have hw : wrapInt (v + hl) = v + hl := by
                  unfold wrapInt at h3 ⊢
                  omega
                rw [hw] at hp hn h4
                refine ⟨hl.toNat, by omega, by omega, ?_⟩
                rw [← hp, ← hn]
                simp only [List.length_drop, List.length_take, List.length_cons] at h4 ⊢
                omega

/-- A call of `Read` that returns a packet has split it off an accumulation
buffer on which the length guard did not fire, and has kept the remainder. -/
theorem Read_ok_state {σ : Type} (rd : Reader σ) :
    ∀ (fuel : Nat) (r r1 : PacketReader σ) (p : List UInt8),
      PacketReader.Read rd fuel r = .returned (.ok p) r1 →
      ∃ d, SplitPacket d = .ok (p, r1.data) ∧
        ¬ (0 < r.maxPacketLength ∧ r.maxPacketLength < d.length % 2 ^ 64) := by
  intro fuel
  induction fuel with
  | zero =>
    intro r r1 p h
    simp [PacketReader.Read] at h
  | succ fuel ih =>
    intro r r1 p h
    rw [PacketReader.Read] at h
    split at h
    · cases h
    · rename_i hg
      split at h
      · rename_i data next hsp
        simp only [ReadOutcome.returned.injEq, Except.ok.injEq] at h
        obtain ⟨hp, hr⟩ := h
        subst hp hr
        exact ⟨r.data, hsp, hg⟩
      · split at h
        · cases h
        · split at h
          · cases h
          · split at h
            · have h3 := ih _ _ _ h
              exact h3
            · cases h

/-- C20, returned packets are bounded by the configured maximum: for every
reader with maximum packet length `M > 0`, every source and every call of
`Read` that returns a packet, the packet has fewer than `M` bytes.  The
accumulation buffer the packet was split from (a header of at most ten bytes,
the packet, and the remainder kept by the reader) is taken to be a Go slice. -/
theorem Read_packet_below_max {σ : Type} (rd : Reader σ) (fuel : Nat) (r r1 : PacketReader σ)
    (p : List UInt8) (hM : 0 < r.maxPacketLength)
    (h : PacketReader.Read rd fuel r = .returned (.ok p) r1)
    (hslice : 10 + p.length + r1.data.length ≤ maxInt) :
    p.length < r.maxPacketLength := by
  have hmax : maxInt = 2 ^ 63 - 1 := rfl
  obtain ⟨d, hsp, hg⟩ := Read_ok_state rd fuel r r1 p h
  obtain ⟨hl, h1, h10, hlen⟩ := SplitPacket_ok_length d p r1.data hsp
  have hmod : d.length % 2 ^ 64 = d.length := Nat.mod_eq_of_lt (by omega)
  rw [hmod] at hg
  have : ¬ r.maxPacketLength < d.length := fun hlt => hg ⟨hM, hlt⟩
  omega

theorem Read_packet_below_max_witness :
    ([3, 4, 5, 6] : List UInt8).length < 5 :=
  Read_packet_below_max chunkReader 3
    { r := [[4, 3], [4, 5, 6]], data := [], buffer := [0, 0, 0], maxPacketLength := 5 }
    { r := [], data := [], buffer := [4, 5, 6], maxPacketLength := 5 } [3, 4, 5, 6]
    (by decide) (by rfl) (by simp [maxInt])

/-! ## Which short buffers can still become a packet -/

theorem leValue_lt : ∀ l : List UInt8, leValue l < 2 ^ (7 * l.length) := by
  intro l
  induction l with
  | nil => simp [leValue]
  | cons b bs ih =>
    have hpow : 2 ^ (7 * (bs.length + 1)) = 128 * 2 ^ (7 * bs.length) := by
      rw [show 7 * (bs.length + 1) = 7 + 7 * bs.length by ring, pow_add]; norm_num
    have : b.toNat % 128 < 128 := Nat.mod_lt _ (by norm_num)
    simp only [leValue, List.length_cons, hpow]
    omega

/-- The loop of `Uvarint` over a run of bytes with the continuation bit, within
the first nine bytes: the accumulator collects their base-128 digits. -/
theorem uvarintLoop_continuation_value : ∀ (l rest : List UInt8) (i x : Nat),
    (∀ b ∈ l, 0x80 ≤ b.toNat) → x < 2 ^ (7 * i) → i + l.length ≤ 9 →
    uvarintLoop (l ++ rest) i x (7 * i) =
      uvarintLoop rest (i + l.length) (x + leValue l * 2 ^ (7 * i)) (7 * (i + l.length)) := by
  intro l
  induction l with
  | nil => intro rest i x _ _ _; simp [leValue]
  | cons b bs ih =>
    intro rest i x hcont hx hi
    have hb : ¬ b.toNat < 0x80 := Nat.not_lt.mpr (hcont b (List.mem_cons_self _ _))
    have hand : b.toNat &&& 0x7f = b.toNat % 128 := by
      have := Nat.and_pow_two_sub_one_eq_mod b.toNat 7
      norm_num at this
      exact this
    have hpow : 2 ^ (7 * (i + 1)) = 128 * 2 ^ (7 * i) := by
      rw [show 7 * (i + 1) = 7 + 7 * i by ring, pow_add]; norm_num
    have hle : 2 ^ (7 * (i + 1)) ≤ 2 ^ 63 :=
      Nat.pow_le_pow_right (by norm_num) (by simp only [List.length_cons] at hi; omega)
    have hdig : b.toNat % 128 < 128 := Nat.mod_lt _ (by norm_num)
    have hlow : b.toNat % 128 * 2 ^ (7 * i) < 2 ^ 64 := by
      have : b.toNat % 128 * 2 ^ (7 * i) < 128 * 2 ^ (7 * i) :=
        Nat.mul_lt_mul_of_pos_right hdig (pow_pos (by norm_num) _)
      omega
    have hx1 : x + b.toNat % 128 * 2 ^ (7 * i) < 2 ^ (7 * (i + 1)) := by
      rw [hpow]
      nlinarith
    rw [List.cons_append, uvarintLoop_cons _ _ _ _ _
      (by simp only [List.length_cons] at hi; omega), if_neg hb]
    simp only [hand, Nat.shiftLeft_eq]
    rw [Nat.mod_eq_of_lt hlow, lor_shifted x _ _ (7 * i) rfl hx,
      show 7 * i + 7 = 7 * (i + 1) by ring,
      ih rest (i + 1) _ (fun c hc => hcont c (List.mem_cons_of_mem _ hc)) hx1
        (by simp only [List.length_cons] at hi; omega)]
    have e1 : i + 1 + bs.length = i + (b :: bs).length := by simp only [List.length_cons]; omega
    have e2 : x + b.toNat % 128 * 2 ^ (7 * i) + leValue bs * 2 ^ (7 * (i + 1)) =
        x + leValue (b :: bs) * 2 ^ (7 * i) := by
      rw [hpow]
      simp only [leValue]
      ring
    rw [e1, e2]

/-- The loop of `Uvarint` at a byte without the continuation bit, within the
first ten bytes and not the overflowing tenth byte: the byte is the last digit. -/
theorem uvarintLoop_terminator (t : UInt8) (rest : List UInt8) (i x : Nat)
    (ht : t.toNat < 0x80) (hi : i ≤ 9) (h9 : ¬ (i = 9 ∧ 1 < t.toNat)) (hx : x < 2 ^ (7 * i)) :
    uvarintLoop (t :: rest) i x (7 * i) = (x + t.toNat * 2 ^ (7 * i), (i : Int) + 1) := by
  have hnot : ¬ (9 < i ∨ (i = 9 ∧ 1 < t.toNat)) := by
    rintro (h | h)
    · omega
    · exact h9 h
  have hlow : t.toNat * 2 ^ (7 * i) < 2 ^ 64 := by
    by_cases hi9 : i = 9
    · subst hi9
      have : t.toNat ≤ 1 := by
        by_contra hcon
        exact h9 ⟨rfl, by omega⟩
      have : t.toNat * 2 ^ (7 * 9) ≤ 1 * 2 ^ (7 * 9) := Nat.mul_le_mul_right _ this
      norm_num at this ⊢
      omega
    · have hle : 2 ^ (7 * i) ≤ 2 ^ 56 := Nat.pow_le_pow_right (by norm_num) (by omega)
      have : t.toNat * 2 ^ (7 * i) ≤ 127 * 2 ^ 56 :=
        Nat.mul_le_mul (by omega) hle
      norm_num at this ⊢
      omega
  rw [uvarintLoop_cons _ _ _ _ _ hi, if_pos ht, if_neg hnot]
  simp only [Nat.shiftLeft_eq]
  rw [Nat.mod_eq_of_lt hlow, lor_shifted x _ _ (7 * i) rfl hx]

/-- A count of 0 from `Uvarint` means that no byte of the buffer was without
the continuation bit. -/
theorem uvarintLoop_zero_count : ∀ (l : List UInt8) (i x s : Nat),
    (uvarintLoop l i x s).2 = 0 → ∀ b ∈ l, 0x80 ≤ b.toNat := by
  intro l
  induction l with
  | nil => intro i x s _ b hb; simp at hb
  | cons c cs ih =>
    intro i x s h b hb
    rw [uvarintLoop] at h
    by_cases h10 : i = MaxVarintLen64
    · rw [if_pos h10] at h
      simp only at h
      omega
    · rw [if_neg h10] at h
      by_cases hc : c.toNat < 0x80
      · rw [if_pos hc] at h
        split at h
        · simp only at h; omega
        · simp only at h; omega
      · rw [if_neg hc] at h
        rcases List.mem_cons.mp hb with h1 | h1
        · rw [h1]; omega
        · exact ih _ _ _ h b h1

/-- A header at which `Uvarint` reports overflow (a negative count) is an
overflow for `SplitPacket`. -/
theorem SplitPacket_overflow_of_neg_count (data : List UInt8) (hfirst : data.head? ≠ some 0)
    (hne : data ≠ []) (hneg : (Uvarint data).2 < 0) : SplitPacket data = .error .ErrOverflow := by
  cases data with
  | nil => exact absurd rfl hne
  | cons b0 rest =>
    have hb0 : b0 ≠ 0 := by
      intro h0
      simp [h0] at hfirst
    simp only [SplitPacket, if_neg hb0]
    rw [if_neg (by omega), if_pos hneg]

/-- A complete header with a length in range, followed by at least that many
bytes: `SplitPacket` succeeds. -/
theorem SplitPacket_ok_of_Uvarint (data : List UInt8) (v : Nat) (headerLength : Int)
    (hfirst : data.head? ≠ some 0) (hU : Uvarint data = (v, headerLength))
    (hcomplete : 0 < headerLength) (hv : 0 < v)
    (hfit : (v : Int) + headerLength ≤ 2 ^ 63 - 1)
    (hlen : (v : Int) + headerLength ≤ data.length) :
    ∃ p next, SplitPacket data = .ok (p, next) := by
  cases data with
  | nil =>
    have h2 : (0 : Int) = headerLength := congrArg Prod.snd hU
    omega
  | cons b0 rest =>
    have hb0 : b0 ≠ 0 := by
      intro h0
      simp [h0] at hfirst
    have hti : toInt v = (v : Int) := toInt_small v (by omega)
    have hw : wrapInt ((v : Int) + headerLength) = (v : Int) + headerLength :=
      wrapInt_small _ (by omega) (by omega)
    simp only [SplitPacket, if_neg hb0, hU, hti, hw]
    rw [if_neg (by omega), if_neg (by omega), if_neg (by omega), if_neg (by omega),
      if_neg (by omega)]
    exact ⟨_, _, rfl⟩

/-- After ten or more bytes with the continuation bit nothing helps: whatever
follows, `SplitPacket` reports `ErrTooShort` or `ErrOverflow`. -/
theorem SplitPacket_continuation_run (l rest : List UInt8) (h10 : 10 ≤ l.length)
    (hcont : ∀ b ∈ l, 0x80 ≤ b.toNat) :
    SplitPacket (l ++ rest) = .error .ErrTooShort ∨
    SplitPacket (l ++ rest) = .error .ErrOverflow := by
  by_cases hlen : (l ++ rest).length ≤ 10
  · left
    have hl : l.length = 10 ∧ rest.length = 0 := by
      simp only [List.length_append] at hlen
      omega
    have hrest : rest = [] := List.length_eq_zero.mp hl.2
    subst hrest
    rw [List.append_nil]
    exact SplitPacket_all_continuation l hcont (by omega)
  · right
    refine SplitPacket_past_max _ (by omega) ?_
    intro b hb
    rw [List.take_append_of_le_length h10] at hb
    exact hcont b (List.mem_of_mem_take hb)

theorem head_ne_zero_of_continuation (l rest : List UInt8) (hne : l ≠ [])
    (hcont : ∀ b ∈ l, 0x80 ≤ b.toNat) : (l ++ rest).head? ≠ some 0 := by
  cases l with
  | nil => exact absurd rfl hne
  | cons c cs =>
    intro h0
    simp only [List.cons_append, List.head?_cons, Option.some.injEq] at h0
    have := hcont c (List.mem_cons_self _ _)
    rw [h0] at this
    simp at this

/-- A buffer that is too short although its header is complete becomes a
packet once enough bytes follow. -/
theorem recover_complete_header (b : List UInt8) (h : SplitPacket b = .error .ErrTooShort)
    (hnc : ¬ ∀ c ∈ b, 0x80 ≤ c.toNat) :
    ∃ e p next, SplitPacket (b ++ e) = .ok (p, next) := by
  have hmax : maxInt = 2 ^ 63 - 1 := rfl
  cases b with
  | nil => exact absurd (by simp) hnc
  | cons b0 rest =>
    by_cases hb0 : b0 = 0
    · simp [SplitPacket, hb0] at h
    · have hcount0 : (Uvarint (b0 :: rest)).2 ≠ 0 := fun h0 =>
        hnc (uvarintLoop_zero_count (b0 :: rest) 0 0 0 h0)
      have hv64 : (Uvarint (b0 :: rest)).1 < 2 ^ 64 :=
        uvarintLoop_value_lt (b0 :: rest) 0 0 0 (by norm_num)
      have hcount10 : (Uvarint (b0 :: rest)).2 ≤ 10 := uvarintLoop_count_le (b0 :: rest) 0 0 0 (by omega)
      have hstable : ∀ e, Uvarint (b0 :: rest ++ e) = Uvarint (b0 :: rest) := fun e =>
        uvarintLoop_append_stable (b0 :: rest) e 0 0 0 hcount0
      simp only [SplitPacket, if_neg hb0, if_neg hcount0] at h
      generalize hUv : Uvarint (b0 :: rest) = U at *
      obtain ⟨v, hl⟩ := U
      simp only at h hcount0 hv64 hcount10
      have hmod : v % 2 ^ 64 = v := Nat.mod_eq_of_lt hv64
      by_cases h1 : hl < 0
      · rw [if_pos h1] at h; cases h
      · rw [if_neg h1] at h
        by_cases h2 : toInt v ≤ 0
        · rw [if_pos h2] at h; cases h
        · rw [if_neg h2] at h
          have hti : toInt v = (v : Int) ∧ 0 < v ∧ v < 2 ^ 63 := by
            unfold toInt at h2 ⊢
            rw [hmod] at h2 ⊢
            split at h2
            · rename_i hlt
              rw [if_pos hlt]
              exact ⟨rfl, by omega, hlt⟩
            · omega
          obtain ⟨hti, hpos, hlt⟩ := hti
          rw [hti] at h
          by_cases h3 : wrapInt ((v : Int) + hl) ≤ 0
          · rw [if_pos h3] at h; cases h
          · have hfit : (v : Int) + hl ≤ 2 ^ 63 - 1 := by
              unfold wrapInt at h3
              omega
            refine ⟨List.replicate (v + hl.toNat) 0, ?_⟩
            refine SplitPacket_ok_of_Uvarint _ v hl ?_ (hstable _) (by omega) hpos hfit ?_
            · simp only [List.cons_append, List.head?_cons, ne_eq, Option.some.injEq]
              exact hb0
            · simp only [List.length_append, List.length_replicate]
              push_cast
              omega

/-- A run of at most nine bytes with the continuation bit can still become a
packet, provided that, when there are nine of them, the 63 bits they carry are
a length in range. -/
theorem recover_continuation_run (b : List UInt8) (hcont : ∀ c ∈ b, 0x80 ≤ c.toNat)
    (hk : b.length ≤ 9) (h9 : b.length = 9 → 0 < leValue b ∧ leValue b + 10 ≤ maxInt) :
    ∃ e p next, SplitPacket (b ++ e) = .ok (p, next) := by
  have hmax : maxInt = 2 ^ 63 - 1 := rfl
  have hval := leValue_lt b
  have hloop : ∀ t pay, uvarintLoop (b ++ t :: pay) 0 0 0 =
      uvarintLoop (t :: pay) b.length (leValue b) (7 * b.length) := by
    intro t pay
    have := uvarintLoop_continuation_value b (t :: pay) 0 0 hcont (by norm_num) (by omega)
    simpa using this
  by_cases hk9 : b.length = 9
  · obtain ⟨hpos, hfit⟩ := h9 hk9
    refine ⟨0 :: List.replicate (leValue b) 0, ?_⟩
    have hU : Uvarint (b ++ 0 :: List.replicate (leValue b) 0) = (leValue b, 10) := by
      rw [Uvarint, hloop, uvarintLoop_terminator 0 _ b.length (leValue b) (by decide) (by omega)
        (by rintro ⟨-, h⟩; simp at h) hval, hk9]
      simp
    refine SplitPacket_ok_of_Uvarint _ (leValue b) 10 ?_ hU (by norm_num) hpos (by omega) ?_
    · exact head_ne_zero_of_continuation b _ (by intro h; rw [h] at hk9; simp at hk9) hcont
    · simp only [List.length_append, List.length_cons, List.length_replicate]
      push_cast
      omega
  · have hk8 : b.length ≤ 8 := by omega
    have hpow : 2 ^ (7 * b.length) ≤ 2 ^ 56 := Nat.pow_le_pow_right (by norm_num) (by omega)
    have hpos : 0 < 2 ^ (7 * b.length) := pow_pos (by norm_num) _
    refine ⟨1 :: List.replicate (leValue b + 2 ^ (7 * b.length)) 0, ?_⟩
    have hU : Uvarint (b ++ 1 :: List.replicate (leValue b + 2 ^ (7 * b.length)) 0) =
        (leValue b + 2 ^ (7 * b.length), (b.length : Int) + 1) := by
      rw [Uvarint, hloop, uvarintLoop_terminator 1 _ b.length (leValue b) (by decide) (by omega)
        (by omega) hval]
      simp
    refine SplitPacket_ok_of_Uvarint _ _ _ ?_ hU (by omega) (by omega) ?_ ?_
    · cases b with
      | nil => simp
      | cons c cs => exact head_ne_zero_of_continuation (c :: cs) _ (by simp) hcont
    · norm_num at hpow
      omega
    · simp only [List.length_append, List.length_cons, List.length_replicate]
      push_cast
      omega

/-- Nine bytes with the continuation bit whose 63 bits are 0, or leave no room
for a ten-byte header in the range of `int`, never become a packet. -/
theorem stuck_nine (b e : List UInt8) (hcont : ∀ c ∈ b, 0x80 ≤ c.toNat) (h9 : b.length = 9)
    (hv : leValue b = 0 ∨ maxInt < leValue b + 10) :
    SplitPacket (b ++ e) = .error .ErrTooShort ∨ SplitPacket (b ++ e) = .error .ErrOverflow := by
  have hmax : maxInt = 2 ^ 63 - 1 := rfl
  have hval := leValue_lt b
  have hne : b ≠ [] := by intro h; rw [h] at h9; simp at h9
  cases e with
  | nil =>
    left
    rw [List.append_nil]
    exact SplitPacket_all_continuation b hcont (by omega)
  | cons t e1 =>
    by_cases ht : t.toNat < 0x80
    · right
      have hloop : uvarintLoop (b ++ t :: e1) 0 0 0 =
          uvarintLoop (t :: e1) b.length (leValue b) (7 * b.length) := by
        have := uvarintLoop_continuation_value b (t :: e1) 0 0 hcont (by norm_num) (by omega)
        simpa using this
      have hfirst := head_ne_zero_of_continuation b (t :: e1) hne hcont
      by_cases h1 : 1 < t.toNat
      · refine SplitPacket_overflow_of_neg_count _ hfirst ?_ ?_
        · intro h0
          have := congrArg List.length h0
          simp at this
        · rw [Uvarint, hloop, h9]
          rw [uvarintLoop_cons _ _ _ _ _ (le_refl 9), if_pos ht,
            if_pos (Or.inr ⟨rfl, h1⟩ : 9 < 9 ∨ (9 = 9 ∧ 1 < t.toNat))]
          norm_num
      · have hU : Uvarint (b ++ t :: e1) = (leValue b + t.toNat * 2 ^ (7 * 9), 10) := by
          rw [Uvarint, hloop, h9, uvarintLoop_terminator t e1 9 (leValue b) ht (le_refl _)
            (fun h => h1 h.2) (by rw [h9] at hval; exact hval)]
          simp
        refine SplitPacket_overflow_of_range _ _ 10 hfirst hU (by norm_num) ?_
        rw [h9] at hval
        have ht01 : t.toNat = 0 ∨ t.toNat = 1 := by omega
        rcases ht01 with h0 | h0
        · rw [h0]
          rcases hv with hv | hv
          · left; omega
          · right; right
            norm_num
            omega
        · rw [h0]
          right; left
          norm_num
    · have hrun := SplitPacket_continuation_run (b ++ [t]) e1
        (by simp only [List.length_append, List.length_singleton]; omega)
        (by
          intro c hc
          rcases List.mem_append.mp hc with h | h
          · exact hcont c h
          · rw [List.mem_singleton.mp h]; omega)
      simpa using hrun

/-- C18, counterexample: ten bytes `0xFF` are reported as `ErrTooShort`, and no
byte sequence appended to them makes `SplitPacket` succeed; so not every
buffer reported as too short can be completed. -/
theorem SplitPacket_tooShort_without_recovery :
    SplitPacket (List.replicate 10 0xFF) = .error .ErrTooShort ∧
    (∀ e p next, SplitPacket (List.replicate 10 0xFF ++ e) ≠ .ok (p, next)) ∧
    ¬ (∀ b : List UInt8, SplitPacket b = .error .ErrTooShort →
        ∃ e p next, SplitPacket (b ++ e) = .ok (p, next)) := by
  have h1 : SplitPacket (List.replicate 10 0xFF) = .error .ErrTooShort := by rfl
  have h2 : ∀ e p next, SplitPacket (List.replicate 10 0xFF ++ e) ≠ .ok (p, next) := by
    intro e p next hok
    rcases SplitPacket_continuation_run (List.replicate 10 0xFF) e (by simp) (by decide) with h | h
    · rw [h] at hok; cases hok
    · rw [h] at hok; cases hok
  refine ⟨h1, h2, ?_⟩
  intro hall
  obtain ⟨e, p, next, hok⟩ := hall _ h1
  exact h2 e p next hok

/-- C18, amended: for every buffer `b` on which `SplitPacket` returns
`ErrTooShort` there is a byte sequence `e` such that `SplitPacket (b ++ e)`
succeeds, unless every byte of `b` has the continuation bit set and `b` has
ten or more bytes, or has nine bytes whose 63 value bits are 0 or exceed
`maxInt - 10`; for those buffers no `e` makes `SplitPacket (b ++ e)` succeed. -/
theorem SplitPacket_tooShort_recoverable (b : List UInt8)
    (h : SplitPacket b = .error .ErrTooShort) :
    (∃ e p next, SplitPacket (b ++ e) = .ok (p, next)) ↔
      ¬ ((∀ c ∈ b, 0x80 ≤ c.toNat) ∧
          (10 ≤ b.length ∨ (b.length = 9 ∧ (leValue b = 0 ∨ maxInt < leValue b + 10)))) := by
  constructor
  · rintro ⟨e, p, next, hok⟩ ⟨hcont, hlen⟩
    have hbad : SplitPacket (b ++ e) = .error .ErrTooShort ∨
        SplitPacket (b ++ e) = .error .ErrOverflow := by
      rcases hlen with h10 | ⟨h9, hv⟩
      · exact SplitPacket_continuation_run b e h10 hcont
      · exact stuck_nine b e hcont h9 hv
    rcases hbad with h1 | h1
    · rw [h1] at hok; cases hok
    · rw [h1] at hok; cases hok
  · intro hnot
    by_cases hcont : ∀ c ∈ b, 0x80 ≤ c.toNat
    · have hk : b.length ≤ 9 := by
        by_contra hcon
        exact hnot ⟨hcont, Or.inl (by omega)⟩
      refine recover_continuation_run b hcont hk ?_
      intro h9
      by_contra hcon
      apply hnot
      refine ⟨hcont, Or.inr ⟨h9, ?_⟩⟩
      by_cases h0 : leValue b = 0
      · exact Or.inl h0
      · right
        by_contra hle
        exact hcon ⟨by omega, by omega⟩
    · exact recover_complete_header b h hcont

theorem SplitPacket_tooShort_recoverable_witness :
    ∃ e p next, SplitPacket (([10, 5, 6] : List UInt8) ++ e) = .ok (p, next) :=
  (SplitPacket_tooShort_recoverable [10, 5, 6] (by rfl)).mpr (by
    rintro ⟨hcont, -⟩
    exact absurd (hcont 10 (by simp)) (by decide))

end Packets
